import Mathlib

/-!
Verification development for the incremental paginated comment-harvest engine
implemented in `src/content/page-script.js` of the YouTube-Channel-Archiver
repository.  JavaScript values flowing through the pipeline are modelled by
the `JsonV` type; the functions of the source file (`resolveComment`,
`processCommentThread`, `fetchReplies`, `fetchWithRetry`, `parseEntityStore`,
the entity-store merge loops, the reply-token dedup loop, the pipelined
main-fetch loop, the IndexedDB batch writer and the emergency DOM scrape) are
translated to executable Lean definitions, and the behavioural properties of
the specification are proved or refuted against them.
-/

/-- Model of a JavaScript/JSON value as it appears in the page data the
harvester walks.  `null` also stands for the JS `undefined` value in stored
positions (both are falsy and have no properties). -/
inductive JsonV where
  | null
  | bool (b : Bool)
  | str (s : String)
  | arr (elems : List JsonV)
  | obj (fields : List (String × JsonV))

mutual

/-- Structural equality test for `JsonV` (JS `SameValueZero` on primitives and
structural comparison on containers). -/
def beqJ : JsonV → JsonV → Bool
  | .null, .null => true
  | .bool a, .bool b => a == b
  | .str a, .str b => a == b
  | .arr xs, .arr ys => beqL xs ys
  | .obj xs, .obj ys => beqO xs ys
  | _, _ => false

/-- Structural equality on lists of values. -/
def beqL : List JsonV → List JsonV → Bool
  | [], [] => true
  | x :: xs, y :: ys => beqJ x y && beqL xs ys
  | _, _ => false

/-- Structural equality on association lists of fields. -/
def beqO : List (String × JsonV) → List (String × JsonV) → Bool
  | [], [] => true
  | (k, v) :: xs, (k', v') :: ys => k == k' && beqJ v v' && beqO xs ys
  | _, _ => false

end

mutual

theorem beqJ_iff : ∀ a b : JsonV, beqJ a b = true ↔ a = b
  | a, b => by
    cases a <;> cases b <;> simp only [beqJ] <;>
      simp_all [beqJ_iff, beqL_iff, beqO_iff, beq_iff_eq]

theorem beqL_iff : ∀ xs ys : List JsonV, beqL xs ys = true ↔ xs = ys
  | [], [] => by simp [beqL]
  | x :: xs, y :: ys => by
    simp [beqL, Bool.and_eq_true, beqJ_iff x y, beqL_iff xs ys]
  | [], _ :: _ => by simp [beqL]
  | _ :: _, [] => by simp [beqL]

theorem beqO_iff : ∀ xs ys : List (String × JsonV), beqO xs ys = true ↔ xs = ys
  | [], [] => by simp [beqO]
  | (k, v) :: xs, (k', v') :: ys => by
    simp [beqO, Bool.and_eq_true, beqJ_iff v v', beqO_iff xs ys, beq_iff_eq]
  | [], _ :: _ => by simp [beqO]
  | _ :: _, [] => by simp [beqO]

end

instance : DecidableEq JsonV := fun a b => decidable_of_iff _ (beqJ_iff a b)

/-- JavaScript truthiness of a value: `null`/`undefined`, `false` and the
empty string are falsy; every array and object is truthy. -/
def jsTruthy : JsonV → Bool
  | .null => false
  | .bool b => b
  | .str s => s != ""
  | .arr _ => true
  | .obj _ => true

/-- Truthiness of a possibly-undefined value (`none` models JS `undefined`). -/
def jsTruthyO : Option JsonV → Bool
  | some v => jsTruthy v
  | none => false

/-- JS `Map.get` / first-match lookup in an association list. -/
def mapGet {K V : Type} [DecidableEq K] : List (K × V) → K → Option V
  | [], _ => none
  | (k', v) :: rest, k => if k' = k then some v else mapGet rest k

/-- JS `Map.set` / IndexedDB `put`: overwrite the entry for the key in place,
or append a new entry, preserving insertion order. -/
def mapSet {K V : Type} [DecidableEq K] : List (K × V) → K → V → List (K × V)
  | [], k, v => [(k, v)]
  | (k', v') :: rest, k, v =>
    if k' = k then (k, v) :: rest else (k', v') :: mapSet rest k v

/-- Digit-list accumulator for `strToNat?`. -/
def natFromCharsAux : List Char → Nat → Option Nat
  | [], acc => some acc
  | c :: rest, acc =>
    if 48 ≤ c.toNat ∧ c.toNat ≤ 57
    then natFromCharsAux rest (acc * 10 + (c.toNat - 48))
    else none

/-- Numeric parse of a property key, for array/string indexing. -/
def strToNat? (s : String) : Option Nat :=
  match s.toList with
  | [] => none
  | cs => natFromCharsAux cs 0

/-- JS property read `o[k]`: field lookup on objects, numeric-string indexing
on arrays and strings, `undefined` (`none`) everywhere else. -/
def idx : JsonV → String → Option JsonV
  | .obj fs, k => mapGet fs k
  | .arr xs, k =>
    match strToNat? k with
    | some i => xs[i]?
    | none => none
  | .str s, k =>
    match strToNat? k with
    | some i => (s.toList[i]?).map (fun c => JsonV.str (String.mk [c]))
    | none => none
  | _, _ => none

/-- JS optional chaining `a?.b` on a possibly-undefined value. -/
def chain (v : Option JsonV) (k : String) : Option JsonV :=
  match v with
  | none => none
  | some x => idx x k

/-- Splitting a character list at dots, accumulating the current segment. -/
def splitDotAux : List Char → List Char → List String
  | [], acc => [String.mk acc.reverse]
  | c :: rest, acc =>
    if c = '.' then String.mk acc.reverse :: splitDotAux rest []
    else splitDotAux rest (c :: acc)

/-- `path.split('.')` for property paths. -/
def splitPath (s : String) : List String := splitDotAux s.toList []

/-- The `getVal` helper of `resolveComment` (page-script.js lines 1118-1121):
`if (!obj) return undefined; return path.split('.').reduce((o, k) => (o || \x7b\x7d)[k], obj)`. -/
def getVal (path : String) (obj : JsonV) : Option JsonV :=
  if jsTruthy obj then
    (splitPath path).foldl
      (fun o k =>
        match o with
        | some v => if jsTruthy v then idx v k else none
        | none => none)
      (some obj)
  else none

/-- JS `a || b` where `a` is already a value. -/
def jsOrV (a b : JsonV) : JsonV := if jsTruthy a then a else b

/-- JS `a || b` where `a` is a possibly-undefined expression and `b` a value. -/
def jsOrO (a : Option JsonV) (b : JsonV) : JsonV :=
  match a with
  | some v => if jsTruthy v then v else b
  | none => b

/-- JS `a || b` where both operands are possibly-undefined expressions and
only the truthiness of the result is consumed afterwards. -/
def jsOrOO (a b : Option JsonV) : Option JsonV :=
  match a with
  | some v => if jsTruthy v then some v else b
  | none => b

/-- First truthy value of a list of possibly-undefined expressions, with the
last operand of the JS `||` chain as the default. -/
def firstTruthy : List (Option JsonV) → JsonV → JsonV
  | [], dflt => dflt
  | x :: rest, dflt =>
    match x with
    | some v => if jsTruthy v then v else firstTruthy rest dflt
    | none => firstTruthy rest dflt

/-- String coercion as performed by `Array.prototype.join`: `null` and
`undefined` become the empty string, other values their JS string form. -/
def jsToStr : JsonV → String
  | .str s => s
  | .bool b => if b then "true" else "false"
  | .null => ""
  | .arr _ => ""
  | .obj _ => "[object Object]"

/-- Spread of `x || []`, used on the reply sub-thread sources: yields the
elements when the value is an array and nothing otherwise. -/
def toArr : Option JsonV → List JsonV
  | some (.arr xs) => xs
  | _ => []

/-- Whether the character list starts with the given pattern. -/
def leadMatch : List Char → List Char → Bool
  | _, [] => true
  | [], _ :: _ => false
  | a :: as, b :: bs => a == b && leadMatch as bs

/-- Whether the pattern occurs somewhere in the character list. -/
def subMatch (t : List Char) : List Char → Bool
  | [] => leadMatch [] t
  | c :: rest => leadMatch (c :: rest) t || subMatch t rest

/-- JS `String.prototype.includes`. -/
def strIncludes (s sub : String) : Bool := subMatch sub.toList s.toList

/-- Minimal JSON escaping of a string body for `JSON.stringify`. -/
def jsonEscape (s : String) : String :=
  String.join (s.toList.map (fun c =>
    if c = '"' then "\\\"" else if c = '\\' then "\\\\" else String.mk [c]))

mutual

/-- Model of `JSON.stringify`, used for the structural fallback dedup key of
reply continuation tokens (page-script.js line 960). -/
def stringify : JsonV → String
  | .null => "null"
  | .bool b => if b then "true" else "false"
  | .str s => "\"" ++ jsonEscape s ++ "\""
  | .arr xs => "[" ++ stringifyElems xs ++ "]"
  | .obj fs => "\x7b" ++ stringifyFields fs ++ "\x7d"

/-- Comma-joined serialization of array elements. -/
def stringifyElems : List JsonV → String
  | [] => ""
  | [x] => stringify x
  | x :: rest => stringify x ++ "," ++ stringifyElems rest

/-- Comma-joined serialization of object fields. -/
def stringifyFields : List (String × JsonV) → String
  | [] => ""
  | [(k, v)] => "\"" ++ jsonEscape k ++ "\":" ++ stringify v
  | (k, v) :: rest =>
    "\"" ++ jsonEscape k ++ "\":" ++ stringify v ++ "," ++ stringifyFields rest

end

/-! ### Retry Transport (`fetchWithRetry`, page-script.js lines 1698-1723) -/

/-- Outcome of a `fetchWithRetry` call: whether the final result was a real
response (`ok`), how many `fetch` attempts were made, and the list of backoff
delays (in milliseconds) awaited between attempts, in order. -/
structure RetryResult where
  ok : Bool
  attempts : Nat
  delays : List Nat
  deriving DecidableEq

/-- Translation of `fetchWithRetry(url, options, retries, backoff)`.  The
network is abstracted by `fetchOk`, telling whether the `n`-th attempt (first
attempt is `n = 0`) succeeds with `response.ok`; a non-ok status and a thrown
network error behave identically in the source (both reach the catch block).
On success the function returns the response (`ok := true`); with retries
left it sleeps `backoff` ms and recurses with `retries - 1` and doubled
backoff; otherwise it returns the sentinel `\x7bok: false, status: 0, ...\x7d`
(`ok := false`) instead of throwing. -/
def fetchWithRetry (fetchOk : Nat → Bool) (i retries backoff : Nat) : RetryResult :=
  if fetchOk i then ⟨true, 1, []⟩
  else
    match retries with
    | r + 1 =>
      let rest := fetchWithRetry fetchOk (i + 1) r (backoff * 2)
      ⟨rest.ok, rest.attempts + 1, backoff :: rest.delays⟩
    | 0 => ⟨false, 1, []⟩

/-- A call to `fetchWithRetry(url, options)` with the source's default
arguments `retries = 5`, `backoff = 1000`. -/
def fetchWithRetryTop (fetchOk : Nat → Bool) : RetryResult :=
  fetchWithRetry fetchOk 0 5 1000

theorem fetchWithRetry_attempts_le (f : Nat → Bool) :
    ∀ r i b, (fetchWithRetry f i r b).attempts ≤ r + 1 := by
  intro r
  induction r with
  | zero => intro i b; by_cases h : f i <;> simp [fetchWithRetry, h]
  | succ r ih =>
    intro i b
    by_cases h : f i
    · simp [fetchWithRetry, h]
    · simpa [fetchWithRetry, h] using Nat.succ_le_succ (ih (i + 1) (b * 2))

theorem fetchWithRetry_attempts_pos (f : Nat → Bool) (i r b : Nat) :
    1 ≤ (fetchWithRetry f i r b).attempts := by
  by_cases h : f i <;> cases r <;> simp [fetchWithRetry, h]

theorem fetchWithRetry_delays (f : Nat → Bool) :
    ∀ r i b, (fetchWithRetry f i r b).delays =
      (List.range ((fetchWithRetry f i r b).attempts - 1)).map (fun k => b * 2 ^ k) := by
  intro r
  induction r with
  | zero => intro i b; by_cases h : f i <;> simp [fetchWithRetry, h]
  | succ r ih =>
    intro i b
    by_cases h : f i
    · simp [fetchWithRetry, h]
    · have hrest := ih (i + 1) (b * 2)
      have hd : (fetchWithRetry f i (r + 1) b).delays
          = b :: (fetchWithRetry f (i + 1) r (b * 2)).delays := by
        simp [fetchWithRetry, h]
      have ha : (fetchWithRetry f i (r + 1) b).attempts
          = (fetchWithRetry f (i + 1) r (b * 2)).attempts + 1 := by
        simp [fetchWithRetry, h]
      obtain ⟨m, hm⟩ : ∃ m, (fetchWithRetry f (i + 1) r (b * 2)).attempts = m + 1 :=
        ⟨(fetchWithRetry f (i + 1) r (b * 2)).attempts - 1, by
          have := fetchWithRetry_attempts_pos f (i + 1) r (b * 2); omega⟩
      rw [hd, ha, Nat.add_sub_cancel, hrest, hm, Nat.add_sub_cancel,
        List.range_succ_eq_map]
      simp only [List.map_cons, List.map_map, pow_zero, mul_one]
      congr 1
      apply List.map_congr_left
      intro k _
      simp only [Function.comp_apply, Nat.succ_eq_add_one, pow_succ]
      ring

/-! ### Token Walker main loop (`extractComments`, page-script.js lines 925-996)

The pipelined while-loop is modelled by `walkLoop`.  The network and the
continuation extraction of `fetchCommentsViaContinuation` /
`extractNextContinuation` are abstracted by a page-chain oracle
`next : Nat → Option Nat` mapping the token of a page to the next token the
response carries (`none` when the response has no continuation item).
`pending` models the `currentPromise` variable: `none` is a null
`currentPromise` (loop exit), `some tok` a pending
`fetchCommentsViaContinuation(tok)` call whose `tok` may itself be absent
(the call then issues no network fetch and yields no next token).  The pair
returned is (number of main network fetches issued, final `batchNumber`). -/

/-- The next token carried by the awaited batch: a pending call that had a
continuation token asks the oracle, a call without one yields no next token
(`fetchCommentsViaContinuation` returns `nextToken: null` without fetching
when the continuation is missing). -/
def stepNext (next : Nat → Option Nat) : Option Nat → Option Nat
  | some t => next t
  | none => none

/-- One-to-one translation of the pipelined fetch loop with its
`batchNumber > 100000` safety ceiling. -/
def walkLoop (next : Nat → Option Nat) (pending : Option (Option Nat))
    (batchNumber fetches : Nat) : Nat × Nat :=
  match pending with
  | none => (fetches, batchNumber)
  | some tok =>
    let nt := stepNext next tok
    let fetches' := fetches + (if nt.isSome then 1 else 0)
    let bn' := batchNumber + 1
    if bn' > 100000 then (fetches', bn')
    else walkLoop next (nt.map some) bn' fetches'
termination_by 100001 - batchNumber
decreasing_by simp_wf; omega

theorem walkLoop_none_eq (next : Nat → Option Nat) (bn f : Nat) :
    walkLoop next none bn f = (f, bn) := by
  rw [walkLoop.eq_def]

theorem walkLoop_some_eq (next : Nat → Option Nat) (tok : Option Nat) (bn f : Nat) :
    walkLoop next (some tok) bn f =
      if bn + 1 > 100000
      then (f + (if (stepNext next tok).isSome then 1 else 0), bn + 1)
      else walkLoop next ((stepNext next tok).map some) (bn + 1)
        (f + (if (stepNext next tok).isSome then 1 else 0)) := by
  rw [walkLoop.eq_def]

/-- The whole main-sequence walk: the first fetch is issued before the loop
(`let currentPromise = fetchCommentsViaContinuation(continuationToken, ...)`),
counting one network fetch when a seed token is present. -/
def mainWalk (next : Nat → Option Nat) (seed : Option Nat) : Nat × Nat :=
  walkLoop next (some seed) 1 (if seed.isSome then 1 else 0)

/-- A fixed chain of `N` pages `0, 1, ..., N - 1` in which every page except
the last carries the next page's continuation token. -/
def chainNext (N : Nat) : Nat → Option Nat :=
  fun i => if i + 1 < N then some (i + 1) else none

theorem walkLoop_chain (N : Nat) :
    ∀ k i bn f, i < N → N - 1 - i = k → bn + k ≤ 100000 →
      walkLoop (chainNext N) (some (some i)) bn f = (f + k, bn + k + 1) := by
  intro k
  induction k with
  | zero =>
    intro i bn f hiN hk _
    have hlast : stepNext (chainNext N) (some i) = none := by
      simp only [stepNext, chainNext]
      simp only [ite_eq_right_iff]
      omega
    rw [walkLoop_some_eq, hlast]
    by_cases hbn : bn + 1 > 100000
    · simp [hbn]
    · rw [if_neg hbn]
      simp [walkLoop_none_eq]
  | succ k ih =>
    intro i bn f hiN hk hbn
    have hnext : stepNext (chainNext N) (some i) = some (i + 1) := by
      simp only [stepNext, chainNext]
      rw [if_pos (by omega)]
    rw [walkLoop_some_eq, hnext]
    have hbn' : ¬ (bn + 1 > 100000) := by omega
    rw [if_neg hbn']
    simp only [Option.isSome_some, ite_true, Option.map_some']
    rw [ih (i + 1) (bn + 1) (f + 1) (by omega) (by omega) (by omega)]
    simp only [Prod.mk.injEq]
    omega

theorem walkLoop_ceiling (next : Nat → Option Nat) :
    ∀ d pending bn f, 100001 - bn ≤ d → bn ≤ 100000 →
      (walkLoop next pending bn f).2 ≤ 100001 := by
  intro d
  induction d with
  | zero => intro pending bn f hd hbn; omega
  | succ d ih =>
    intro pending bn f hd hbn
    match pending with
    | none => rw [walkLoop_none_eq]; omega
    | some tok =>
      rw [walkLoop_some_eq]
      by_cases hc : bn + 1 > 100000
      · simp only [hc, ite_true]; omega
      · rw [if_neg hc]
        exact ih _ (bn + 1) _ (by omega) (by omega)

/-- C3 counterexample: when every attempt fails, `fetchWithRetry` with the
default arguments performs the initial attempt plus five retries, i.e. six
`fetch` calls in total, so the claim that at most 5 attempts are made is
false on the code. -/
theorem claim_C3_retry_counterexample :
    ¬ ((fetchWithRetryTop (fun _ => false)).attempts ≤ 5) := by decide

/-- C3 (amended): for every URL and request, `fetchWithRetry` makes at most 6
attempts (one initial attempt plus up to 5 retries); the delay before each
retry starts at 1000 ms and doubles after each failed attempt; a call that
fails on attempts 1-3 and succeeds on attempt 4 succeeds overall with delays
1s, 2s, 4s; and on exhausting all retries it returns a sentinel failure
result with `ok = false` instead of raising an exception. -/
theorem claim_C3_retry_amended :
    (∀ f, (fetchWithRetryTop f).attempts ≤ 6) ∧
    (∀ f, (fetchWithRetryTop f).delays =
      (List.range ((fetchWithRetryTop f).attempts - 1)).map (fun k => 1000 * 2 ^ k)) ∧
    (fetchWithRetryTop (fun n => decide (3 ≤ n))).ok = true ∧
    (fetchWithRetryTop (fun n => decide (3 ≤ n))).delays = [1000, 2000, 4000] ∧
    (fetchWithRetryTop (fun _ => false)).ok = false :=
  ⟨fun f => fetchWithRetry_attempts_le f 5 0 1000,
   fun f => fetchWithRetry_delays f 5 0 1000,
   by decide, by decide, by decide⟩

/-- C2: given a fixed chain of `N` pages in which every page but the last
carries a next continuation token, the main-sequence walk issues exactly `N`
main fetches and then stops (for `N` below the safety ceiling); and for every
page-chain oracle and seed the loop executes at most 100000 iterations, so
the walk always terminates, either on a batch with no next token or at the
hard iteration ceiling. -/
theorem claim_C2_pagination_termination :
    (∀ N : Nat, 1 ≤ N → N ≤ 100000 →
      (mainWalk (chainNext N) (some 0)).1 = N) ∧
    (∀ (next : Nat → Option Nat) (seed : Option Nat),
      (mainWalk next seed).2 - 1 ≤ 100000) := by
  constructor
  · intro N h1 h2
    show (walkLoop (chainNext N) (some (some 0)) 1
      (if (some 0 : Option Nat).isSome then 1 else 0)).1 = N
    simp only [Option.isSome_some, ite_true]
    rw [walkLoop_chain N (N - 1) 0 1 1 (by omega) (by omega) (by omega)]
    simp
    omega
  · intro next seed
    have h := walkLoop_ceiling next 100000 (some seed) 1
      (if seed.isSome then 1 else 0) (by omega) (by omega)
    show (walkLoop next (some seed) 1 (if seed.isSome then 1 else 0)).2 - 1 ≤ 100000
    omega

/-- Concrete instance of the pagination claim: a chain of 3 pages yields
exactly 3 main fetches. -/
theorem claim_C2_pagination_termination_witness :
    (mainWalk (chainNext 3) (some 0)).1 = 3 :=
  claim_C2_pagination_termination.1 3 (by decide) (by decide)

/-! ### Entity store and the merge loops
(`parseEntityStore` lines 1077-1097; the merge loops of
`fetchCommentsViaContinuation` lines 1618-1623 and `fetchReplies`
lines 1441-1445). -/

/-- The session-wide entity store: a JS `Map` from entity key to normalized
payload, in insertion order.  Keys are `JsonV` because `mutation.entityKey`
is stored as-is by the source. -/
abbrev EntityStore := List (JsonV × JsonV)

/-- Generic fold of `Map.set` over an update list, in order: the common shape
of both merge loops (`newStore.forEach((v, k) => entityStore.set(k, v))`). -/
def mergeMap {K V : Type} [DecidableEq K] (upd store : List (K × V)) : List (K × V) :=
  upd.foldl (fun s p => mapSet s p.1 p.2) store

/-- The value the last entry of the update list carrying the key would leave
behind, i.e. the semantic content of an update for one key. -/
def lastVal {K V : Type} [DecidableEq K] (upd : List (K × V)) (k : K) : Option V :=
  upd.foldl (fun acc p => if p.1 = k then some p.2 else acc) none

/-- Translation of `parseEntityStore(frameworkUpdates)`: walk
`frameworkUpdates?.entityBatchUpdate?.mutations`, keep each mutation carrying
a truthy payload, unwrap `commentEntityPayload` when present, and `Map.set`
the result under the mutation's entity key. -/
def parseEntityStore (frameworkUpdates : JsonV) : EntityStore :=
  match chain (chain (some frameworkUpdates) "entityBatchUpdate") "mutations" with
  | some (.arr mutations) =>
    mutations.foldl
      (fun store m =>
        match idx m "payload" with
        | some payload =>
          if jsTruthy payload then
            let key := (idx m "entityKey").getD JsonV.null
            match idx payload "commentEntityPayload" with
            | some cep =>
              if jsTruthy cep then mapSet store key cep else mapSet store key payload
            | none => mapSet store key payload
          else store
        | none => store)
      []
  | _ => []

/-- Translation of the entity-merge loop
`newUpdates.forEach((v, k) => entityStore.set(k, v))`: every key of the
incoming update overwrites the stored value. -/
def mergeEntities (upd : EntityStore) (store : EntityStore) : EntityStore :=
  mergeMap upd store

theorem mapGet_mapSet {K V : Type} [DecidableEq K]
    (s : List (K × V)) (k : K) (v : V) (k₂ : K) :
    mapGet (mapSet s k v) k₂ = if k = k₂ then some v else mapGet s k₂ := by
  induction s with
  | nil => simp [mapSet, mapGet]
  | cons p rest ih =>
    obtain ⟨a, b⟩ := p
    by_cases hak : a = k
    · subst hak
      by_cases hk2 : a = k₂ <;> simp [mapSet, mapGet, hk2]
    · by_cases ha2 : a = k₂
      · subst ha2
        have hk2 : ¬ (k = a) := fun h => hak h.symm
        simp [mapSet, mapGet, hak, hk2]
      · simp [mapSet, mapGet, hak, ha2, ih]

/-- Left-biased combination of two optional values, the shape shared by all
last-write-wins lookup lemmas below. -/
def orO {V : Type} : Option V → Option V → Option V
  | some v, _ => some v
  | none, b => b

theorem lastVal_foldl {K V : Type} [DecidableEq K]
    (upd : List (K × V)) (k : K) (init : Option V) :
    upd.foldl (fun acc p => if p.1 = k then some p.2 else acc) init =
      orO (lastVal upd k) init := by
  induction upd generalizing init with
  | nil => simp [lastVal, orO]
  | cons p rest ih =>
    have hL : (p :: rest).foldl (fun acc q => if q.1 = k then some q.2 else acc) init =
        orO (lastVal rest k) (if p.1 = k then some p.2 else init) := by
      simp only [List.foldl_cons]
      exact ih _
    have hR : lastVal (p :: rest) k =
        orO (lastVal rest k) (if p.1 = k then some p.2 else none) := by
      simp only [lastVal, List.foldl_cons]
      exact ih _
    rw [hL, hR]
    cases lastVal rest k <;> by_cases hp : p.1 = k <;> simp [orO, hp]

theorem lastVal_cons {K V : Type} [DecidableEq K]
    (p : K × V) (rest : List (K × V)) (k : K) :
    lastVal (p :: rest) k =
      orO (lastVal rest k) (if p.1 = k then some p.2 else none) := by
  simp only [lastVal, List.foldl_cons]
  exact lastVal_foldl rest k _

theorem mergeMap_get {K V : Type} [DecidableEq K]
    (upd : List (K × V)) (store : List (K × V)) (k : K) :
    mapGet (mergeMap upd store) k = orO (lastVal upd k) (mapGet store k) := by
  induction upd generalizing store with
  | nil => simp [mergeMap, lastVal, orO]
  | cons p rest ih =>
    simp only [mergeMap, List.foldl_cons]
    have hstep := ih (mapSet store p.1 p.2)
    simp only [mergeMap] at hstep
    rw [hstep, lastVal_cons]
    rw [mapGet_mapSet]
    cases lastVal rest k <;> by_cases hp : p.1 = k <;> simp [orO, hp]

/-- C4: entity-store merging is last-applied-wins per key.  Applying batch
update `A` then batch update `B`, a key written by `B` ends with `B`'s last
value for it; a key written only by `A` keeps `A`'s value; and a key written
by neither keeps whatever the store already held (merging never deletes). -/
theorem claim_C4_entity_merge :
    ∀ (A B store : EntityStore) (k : JsonV),
      (∀ v, lastVal B k = some v →
        mapGet (mergeEntities B (mergeEntities A store)) k = some v) ∧
      (lastVal B k = none → ∀ v, lastVal A k = some v →
        mapGet (mergeEntities B (mergeEntities A store)) k = some v) ∧
      (lastVal B k = none → lastVal A k = none →
        mapGet (mergeEntities B (mergeEntities A store)) k = mapGet store k) := by
  intro A B store k
  have key : mapGet (mergeEntities B (mergeEntities A store)) k =
      orO (lastVal B k) (orO (lastVal A k) (mapGet store k)) := by
    simp only [mergeEntities]
    rw [mergeMap_get B, mergeMap_get A]
  refine ⟨?_, ?_, ?_⟩
  · intro v hv; rw [key, hv]; rfl
  · intro h0 v hv; rw [key, h0, hv]; rfl
  · intro h0 h1; rw [key, h0, h1]; rfl

/-- Concrete instance of the entity-merge claim on one-entry updates. -/
theorem claim_C4_entity_merge_witness :
    mapGet (mergeEntities [(JsonV.str "k", JsonV.str "b")]
        (mergeEntities [(JsonV.str "k", JsonV.str "a")] [])) (JsonV.str "k")
      = some (JsonV.str "b") ∧
    mapGet (mergeEntities [] (mergeEntities [(JsonV.str "k", JsonV.str "a")] []))
        (JsonV.str "k") = some (JsonV.str "a") ∧
    mapGet (mergeEntities [] (mergeEntities []
        [(JsonV.str "k", JsonV.str "s")])) (JsonV.str "k") = some (JsonV.str "s") :=
  ⟨(claim_C4_entity_merge _ _ _ _).1 _ (by decide),
   (claim_C4_entity_merge _ _ _ _).2.1 (by decide) _ (by decide),
   (claim_C4_entity_merge _ _ _ _).2.2 (by decide) (by decide)⟩

/-! ### Reply Harvester idle barrier (`SimpleQueue`, page-script.js lines 26-66)

`SimpleQueue` keeps a task array `queue` and a counter `running`; `add`
pushes a task and triggers `process()`, which admits the head of the queue
whenever fewer than `concurrency` (4, the value used by `extractComments`)
tasks are running, and is triggered again each time a task settles.
`onIdle()` polls `running > 0 || queue.length > 0` every 100 ms and resolves
at the first poll at which the condition is false.  The cooperative
interleavings of these operations are modelled as event traces; `running` is
represented by the list of currently running task ids, whose length is the
source's counter, so `running > 0` is `running ≠ []`. -/

/-- State of one `SimpleQueue` together with the settled-task log and the
resolution flag of an `onIdle()` caller. -/
structure QueueState where
  queue : List Nat
  running : List Nat
  settled : List Nat
  idleResolved : Bool
  deriving DecidableEq

/-- Events of the cooperative schedule: `add` is `SimpleQueue.add`;
`process` is one admission step of `SimpleQueue.process`; `complete t` is
the settlement (fulfilment or rejection) of running task `t`, including the
`running--` of the `finally` block; `idlePoll` is one evaluation of the
`onIdle` while-condition. -/
inductive QueueEvent where
  | add (t : Nat)
  | process
  | complete (t : Nat)
  | idlePoll
  deriving DecidableEq

def queueInit : QueueState := ⟨[], [], [], false⟩

/-- One event step of the queue model. -/
def queueStep (s : QueueState) (e : QueueEvent) : QueueState :=
  match e with
  | .add t => { s with queue := s.queue ++ [t] }
  | .process =>
    if s.running.length ≥ 4 ∨ s.queue = [] then s
    else
      match s.queue with
      | [] => s
      | t :: rest => { s with queue := rest, running := t :: s.running }
  | .complete t =>
    if t ∈ s.running then
      { s with running := s.running.erase t, settled := t :: s.settled }
    else s
  | .idlePoll =>
    if s.running = [] ∧ s.queue = [] then { s with idleResolved := true } else s

def queueRunFrom (s : QueueState) (es : List QueueEvent) : QueueState :=
  es.foldl queueStep s

def queueRun (es : List QueueEvent) : QueueState :=
  queueRunFrom queueInit es

/-- A task that has entered the system: it is waiting, running or settled. -/
def inSystem (s : QueueState) (t : Nat) : Prop :=
  t ∈ s.queue ∨ t ∈ s.running ∨ t ∈ s.settled

instance (s : QueueState) (t : Nat) : Decidable (inSystem s t) := by
  unfold inSystem; infer_instance

theorem queueStep_poll_state (s : QueueState) :
    (queueStep s .idlePoll).queue = s.queue ∧
    (queueStep s .idlePoll).running = s.running ∧
    (queueStep s .idlePoll).settled = s.settled := by
  simp only [queueStep]
  split <;> simp

theorem queueStep_process_state (s : QueueState) :
    (queueStep s .process).settled = s.settled ∧
    (queueStep s .process).idleResolved = s.idleResolved ∧
    (((queueStep s .process).queue = s.queue ∧
        (queueStep s .process).running = s.running) ∨
      (∃ a rest, s.queue = a :: rest ∧ (queueStep s .process).queue = rest ∧
        (queueStep s .process).running = a :: s.running)) := by
  simp only [queueStep]
  by_cases hg : s.running.length ≥ 4 ∨ s.queue = []
  · simp [hg]
  · rw [if_neg hg]
    rcases hq : s.queue with _ | ⟨a, rest⟩
    · simp [hq]
    · exact ⟨rfl, rfl, Or.inr ⟨a, rest, rfl, rfl, rfl⟩⟩

theorem queueStep_inSystem (s : QueueState) (e : QueueEvent) (t : Nat)
    (h : inSystem s t) : inSystem (queueStep s e) t := by
  rcases e with u | _ | u | _
  · rcases h with h | h | h <;> simp [queueStep, inSystem, h]
  · obtain ⟨hs, _, hcase⟩ := queueStep_process_state s
    unfold inSystem at h ⊢
    rcases hcase with ⟨hq, hr⟩ | ⟨a, rest, hq0, hq, hr⟩
    · rw [hq, hr, hs]; exact h
    · rw [hq, hr, hs]
      rcases h with h | h | h
      · rw [hq0] at h
        rcases List.mem_cons.mp h with h | h
        · subst h; exact Or.inr (Or.inl (List.mem_cons_self _ _))
        · exact Or.inl h
      · exact Or.inr (Or.inl (List.mem_cons_of_mem _ h))
      · exact Or.inr (Or.inr h)
  · simp only [queueStep]
    by_cases hr : u ∈ s.running
    · rw [if_pos hr]
      unfold inSystem at h ⊢
      rcases h with h | h | h
      · exact Or.inl h
      · by_cases htu : t = u
        · subst htu; exact Or.inr (Or.inr (by simp))
        · exact Or.inr (Or.inl ((List.mem_erase_of_ne htu).mpr h))
      · exact Or.inr (Or.inr (by simp [h]))
    · rw [if_neg hr]; exact h
  · obtain ⟨hq, hr, hs⟩ := queueStep_poll_state s
    unfold inSystem at h ⊢
    rw [hq, hr, hs]; exact h

theorem queueStep_settled_mono (s : QueueState) (e : QueueEvent) (t : Nat)
    (h : t ∈ s.settled) : t ∈ (queueStep s e).settled := by
  rcases e with u | _ | u | _
  · simpa [queueStep]
  · rw [(queueStep_process_state s).1]; exact h
  · simp only [queueStep]
    by_cases hr : u ∈ s.running
    · rw [if_pos hr]; simp [h]
    · rw [if_neg hr]; exact h
  · rw [(queueStep_poll_state s).2.2]; exact h

theorem queueStep_resolved (s : QueueState) (e : QueueEvent)
    (h : (queueStep s e).idleResolved = true) :
    s.idleResolved = true ∨
      (e = QueueEvent.idlePoll ∧ s.running = [] ∧ s.queue = []) := by
  rcases e with u | _ | u | _
  · left; simpa [queueStep] using h
  · left; rw [(queueStep_process_state s).2.1] at h; exact h
  · left
    simp only [queueStep] at h
    by_cases hr : u ∈ s.running
    · rw [if_pos hr] at h; exact h
    · rw [if_neg hr] at h; exact h
  · simp only [queueStep] at h
    by_cases hc : s.running = [] ∧ s.queue = []
    · exact Or.inr ⟨rfl, hc.1, hc.2⟩
    · left; rw [if_neg hc] at h; exact h

theorem queueRunFrom_settled_mono (es : List QueueEvent) :
    ∀ (s : QueueState) (t : Nat), t ∈ s.settled →
      t ∈ (queueRunFrom s es).settled := by
  induction es with
  | nil => intro s t h; simpa [queueRunFrom]
  | cons e rest ih =>
    intro s t h
    have h1 := queueStep_settled_mono s e t h
    simpa [queueRunFrom] using ih (queueStep s e) t h1

theorem queueRunFrom_barrier (es : List QueueEvent) :
    ∀ (s : QueueState) (t : Nat), inSystem s t →
      (s.idleResolved = true → t ∈ s.settled) →
      (queueRunFrom s es).idleResolved = true →
      t ∈ (queueRunFrom s es).settled := by
  induction es with
  | nil =>
    intro s t _ himp hres
    simpa [queueRunFrom] using himp (by simpa [queueRunFrom] using hres)
  | cons e rest ih =>
    intro s t hin himp hres
    have hin' := queueStep_inSystem s e t hin
    have himp' : (queueStep s e).idleResolved = true → t ∈ (queueStep s e).settled := by
      intro hr
      rcases queueStep_resolved s e hr with h | h
      · exact queueStep_settled_mono s e t (himp h)
      · rcases hin with hq | hr2 | hs
        · rw [h.2.2] at hq; cases hq
        · rw [h.2.1] at hr2; cases hr2
        · exact queueStep_settled_mono s e t hs
    have hmain := ih (queueStep s e) t hin' himp'
    simpa [queueRunFrom] using hmain (by simpa [queueRunFrom] using hres)

theorem queueRunFrom_no_poll (es : List QueueEvent) :
    ∀ s : QueueState, (∀ e ∈ es, e ≠ QueueEvent.idlePoll) →
      (queueRunFrom s es).idleResolved = s.idleResolved := by
  induction es with
  | nil => intro s _; simp [queueRunFrom]
  | cons e rest ih =>
    intro s hnp
    have he : e ≠ QueueEvent.idlePoll := hnp e (by simp)
    have hstep : (queueStep s e).idleResolved = s.idleResolved := by
      rcases e with u | _ | u | _
      · simp [queueStep]
      · exact (queueStep_process_state s).2.1
      · simp only [queueStep]
        by_cases hr : u ∈ s.running
        · rw [if_pos hr]
        · rw [if_neg hr]
      · exact absurd rfl he
    have hrest := ih (queueStep s e) (fun x hx => hnp x (by simp [hx]))
    simpa [queueRunFrom, hstep] using hrest

/-- C5: the idle barrier of the Reply Harvester.  First part: for any trace
whose prefix `es₁` contains no `onIdle` poll (the claim's scenario of tasks
enqueued synchronously before the `onIdle` caller ever suspends), every task
that has entered the system during `es₁` is settled by the time `onIdle()`
resolves, whatever happens in the remainder `es₂` of the schedule — so the
barrier re-evaluates its condition rather than snapshotting it.  Second
part: the barrier resolves only at a poll step taken in a state with a zero
running count and an empty queue. -/
theorem claim_C5_idle_barrier :
    (∀ (es₁ es₂ : List QueueEvent) (t : Nat),
      (∀ e ∈ es₁, e ≠ QueueEvent.idlePoll) →
      inSystem (queueRun es₁) t →
      (queueRun (es₁ ++ es₂)).idleResolved = true →
      t ∈ (queueRun (es₁ ++ es₂)).settled) ∧
    (∀ (es : List QueueEvent) (e : QueueEvent),
      (queueRun es).idleResolved = false →
      (queueRun (es ++ [e])).idleResolved = true →
      e = QueueEvent.idlePoll ∧ (queueRun es).running = [] ∧
        (queueRun es).queue = []) := by
  constructor
  · intro es₁ es₂ t hnp hin hres
    have hsplit : queueRun (es₁ ++ es₂) = queueRunFrom (queueRun es₁) es₂ := by
      simp [queueRun, queueRunFrom, List.foldl_append]
    rw [hsplit] at hres ⊢
    have hfalse : (queueRun es₁).idleResolved = false := by
      have h0 := queueRunFrom_no_poll es₁ queueInit hnp
      simpa [queueRun, queueInit] using h0
    exact queueRunFrom_barrier es₂ (queueRun es₁) t hin
      (fun h => by rw [hfalse] at h; cases h) hres
  · intro es e h0 h1
    have hstep : queueRun (es ++ [e]) = queueStep (queueRun es) e := by
      simp [queueRun, queueRunFrom, List.foldl_append]
    rw [hstep] at h1
    rcases queueStep_resolved _ e h1 with h | h
    · rw [h0] at h; cases h
    · exact h

/-- Concrete instance of the idle-barrier claim: five tasks enqueued, the
idle caller starts, a sixth task is enqueued before any poll, and the idle
condition only becomes true after all six settle under the
concurrency-4 schedule, so onIdle observes the sixth task settled. -/
theorem claim_C5_idle_barrier_witness :
    6 ∈ (queueRun
      ([QueueEvent.add 1, QueueEvent.add 2, QueueEvent.add 3, QueueEvent.add 4,
        QueueEvent.add 5, QueueEvent.add 6] ++
       [QueueEvent.process, QueueEvent.process, QueueEvent.process,
        QueueEvent.process, QueueEvent.complete 1, QueueEvent.process,
        QueueEvent.complete 2, QueueEvent.process, QueueEvent.complete 3,
        QueueEvent.complete 4, QueueEvent.complete 5, QueueEvent.complete 6,
        QueueEvent.idlePoll])).settled :=
  claim_C5_idle_barrier.1
    [QueueEvent.add 1, QueueEvent.add 2, QueueEvent.add 3, QueueEvent.add 4,
      QueueEvent.add 5, QueueEvent.add 6]
    [QueueEvent.process, QueueEvent.process, QueueEvent.process,
      QueueEvent.process, QueueEvent.complete 1, QueueEvent.process,
      QueueEvent.complete 2, QueueEvent.process, QueueEvent.complete 3,
      QueueEvent.complete 4, QueueEvent.complete 5, QueueEvent.complete 6,
      QueueEvent.idlePoll]
    6 (by decide) (by decide) (by decide)

/-! ### Durable Sink write barrier
(`saveCommentBatch` lines 680-696, `pendingWrites` collection and
`await Promise.all(pendingWrites)` in `extractComments` lines 921-924,
943-946, 973-976 and 1003-1006)

Each `saveCommentBatch` call returns a promise that resolves when its
IndexedDB transaction settles; the transaction error handler logs and calls
`resolve()`, so a failed write settles the handle exactly like a successful
one and never rejects.  The handles are collected in `pendingWrites` and the
loop ends with `await Promise.all(pendingWrites)`. -/

/-- State of the pending-write set: handles scheduled so far, handles already
settled, and whether the `Promise.all` barrier has resolved. -/
structure SinkState where
  scheduled : List Nat
  settledWrites : List Nat
  barrierResolved : Bool
  deriving DecidableEq

/-- Events: `schedule w` is a `saveCommentBatch` call pushed into
`pendingWrites`; `settle w ok` is the settlement of write `w`
(`tx.oncomplete` when `ok`, the logging `tx.onerror` handler otherwise —
both resolve the handle); `awaitAll` is the `Promise.all` barrier check. -/
inductive SinkEvent where
  | schedule (w : Nat)
  | settle (w : Nat) (ok : Bool)
  | awaitAll
  deriving DecidableEq

def sinkInit : SinkState := ⟨[], [], false⟩

/-- One event step of the pending-write model. -/
def sinkStep (s : SinkState) (e : SinkEvent) : SinkState :=
  match e with
  | .schedule w => { s with scheduled := s.scheduled ++ [w] }
  | .settle w _ =>
    if w ∈ s.scheduled ∧ w ∉ s.settledWrites then
      { s with settledWrites := w :: s.settledWrites }
    else s
  | .awaitAll =>
    if ∀ w ∈ s.scheduled, w ∈ s.settledWrites then
      { s with barrierResolved := true }
    else s

def sinkRunFrom (s : SinkState) (es : List SinkEvent) : SinkState :=
  es.foldl sinkStep s

def sinkRun (es : List SinkEvent) : SinkState :=
  sinkRunFrom sinkInit es

theorem sinkStep_invariant (s : SinkState) (e : SinkEvent) (w : Nat)
    (h : w ∈ s.scheduled ∧ (s.barrierResolved = true → w ∈ s.settledWrites)) :
    w ∈ (sinkStep s e).scheduled ∧
      ((sinkStep s e).barrierResolved = true → w ∈ (sinkStep s e).settledWrites) := by
  cases e with
  | schedule u =>
    exact ⟨by simp [sinkStep, h.1], fun hr => by
      simpa [sinkStep] using h.2 (by simpa [sinkStep] using hr)⟩
  | settle u ok =>
    simp only [sinkStep]
    by_cases hc : u ∈ s.scheduled ∧ u ∉ s.settledWrites
    · rw [if_pos hc]
      exact ⟨h.1, fun hr => List.mem_cons_of_mem _ (h.2 hr)⟩
    · rw [if_neg hc]; exact h
  | awaitAll =>
    simp only [sinkStep]
    by_cases hc : ∀ x ∈ s.scheduled, x ∈ s.settledWrites
    · rw [if_pos hc]
      exact ⟨h.1, fun _ => hc w h.1⟩
    · rw [if_neg hc]; exact h

theorem sinkRunFrom_invariant (es : List SinkEvent) :
    ∀ (s : SinkState) (w : Nat),
      w ∈ s.scheduled ∧ (s.barrierResolved = true → w ∈ s.settledWrites) →
      w ∈ (sinkRunFrom s es).scheduled ∧
        ((sinkRunFrom s es).barrierResolved = true →
          w ∈ (sinkRunFrom s es).settledWrites) := by
  induction es with
  | nil => intro s w h; simpa [sinkRunFrom]
  | cons e rest ih =>
    intro s w h
    have h1 := sinkStep_invariant s e w h
    simpa [sinkRunFrom] using ih (sinkStep s e) w h1

theorem sinkRunFrom_no_barrier (es : List SinkEvent) :
    ∀ s : SinkState, (∀ e ∈ es, e ≠ SinkEvent.awaitAll) →
      (sinkRunFrom s es).barrierResolved = s.barrierResolved := by
  induction es with
  | nil => intro s _; simp [sinkRunFrom]
  | cons e rest ih =>
    intro s hnb
    have he : e ≠ SinkEvent.awaitAll := hnb e (by simp)
    have hstep : (sinkStep s e).barrierResolved = s.barrierResolved := by
      cases e with
      | schedule u => simp [sinkStep]
      | settle u ok =>
        simp only [sinkStep]
        by_cases hc : u ∈ s.scheduled ∧ u ∉ s.settledWrites
        · rw [if_pos hc]
        · rw [if_neg hc]
      | awaitAll => exact absurd rfl he
    have hrest := ih (sinkStep s e) (fun x hx => hnb x (by simp [hx]))
    simpa [sinkRunFrom, hstep] using hrest

/-- C6: the persistence completion barrier.  First part: for any schedule,
every write scheduled before the barrier is awaited is settled by the time
the barrier resolves, whatever the completion order and latencies in the
remainder of the trace.  Second part: a write that fails settles exactly
like a successful one (the error handler resolves the handle after
logging).  Third part: once every scheduled write has settled — success or
failure — the barrier check resolves, so a persistence error neither aborts
the harvest nor prevents the barrier from resolving. -/
theorem claim_C6_write_barrier :
    (∀ (es₁ es₂ : List SinkEvent) (w : Nat),
      (∀ e ∈ es₁, e ≠ SinkEvent.awaitAll) →
      w ∈ (sinkRun es₁).scheduled →
      (sinkRun (es₁ ++ es₂)).barrierResolved = true →
      w ∈ (sinkRun (es₁ ++ es₂)).settledWrites) ∧
    (∀ (s : SinkState) (w : Nat), w ∈ s.scheduled → w ∉ s.settledWrites →
      w ∈ (sinkStep s (SinkEvent.settle w false)).settledWrites) ∧
    (∀ s : SinkState, (∀ w ∈ s.scheduled, w ∈ s.settledWrites) →
      (sinkStep s SinkEvent.awaitAll).barrierResolved = true) := by
  refine ⟨?_, ?_, ?_⟩
  · intro es₁ es₂ w hnb hsched hres
    have hsplit : sinkRun (es₁ ++ es₂) = sinkRunFrom (sinkRun es₁) es₂ := by
      simp [sinkRun, sinkRunFrom, List.foldl_append]
    rw [hsplit] at hres ⊢
    have hfalse : (sinkRun es₁).barrierResolved = false := by
      have h0 := sinkRunFrom_no_barrier es₁ sinkInit hnb
      simpa [sinkRun, sinkInit] using h0
    exact (sinkRunFrom_invariant es₂ (sinkRun es₁) w
      ⟨hsched, fun h => by rw [hfalse] at h; cases h⟩).2 hres
  · intro s w h1 h2
    simp only [sinkStep]
    rw [if_pos ⟨h1, h2⟩]
    simp
  · intro s hall
    simp only [sinkStep]
    rw [if_pos hall]

/-- Concrete instance of the write-barrier claim: two writes scheduled, one
settling with a failure, and the barrier observed only after both settle. -/
theorem claim_C6_write_barrier_witness :
    2 ∈ (sinkRun
      ([SinkEvent.schedule 1, SinkEvent.schedule 2] ++
       [SinkEvent.settle 1 true, SinkEvent.settle 2 false,
        SinkEvent.awaitAll])).settledWrites ∧
    1 ∈ (sinkStep ⟨[1], [], false⟩ (SinkEvent.settle 1 false)).settledWrites ∧
    (sinkStep ⟨[1], [1], false⟩ SinkEvent.awaitAll).barrierResolved = true :=
  ⟨claim_C6_write_barrier.1
      [SinkEvent.schedule 1, SinkEvent.schedule 2]
      [SinkEvent.settle 1 true, SinkEvent.settle 2 false, SinkEvent.awaitAll]
      2 (by decide) (by decide) (by decide),
   claim_C6_write_barrier.2.1 ⟨[1], [], false⟩ 1 (by decide) (by decide),
   claim_C6_write_barrier.2.2 ⟨[1], [1], false⟩ (by decide)⟩

/-! ### Records

The comment objects produced by the pipeline are JS object literals with
slightly different key sets per producer; `Record` is the union of those
keys, with a field default standing for a key the producer does not set
(`JsonV.null` / `none` / `false` model the absent, `undefined`, property). -/

/-- A harvested comment record. -/
structure Record where
  id : JsonV := .null
  author : JsonV := .null
  text : JsonV := .null
  time : JsonV := .null
  likes : JsonV := .null
  authorUrl : JsonV := .null
  isChannelOwner : JsonV := .null
  isMember : Bool := false
  member : JsonV := .null
  authorImg : Option JsonV := none
  isReply : Bool := false
  parentId : Option JsonV := none
  replies : List JsonV := []
  deriving DecidableEq

/-! ### Fallback Extractor (emergency DOM scrape, page-script.js lines 1018-1050) -/

/-- One rendered `ytd-comment-thread-renderer` as seen by the emergency
scrape, each field being the text of the corresponding selector chain with
the source's `|| ''` / `|| '0'` defaults already applied; `content` and
`author` are `""` when the selector found nothing. -/
structure DomThread where
  content : String
  author : String
  time : String
  likes : String
  authorUrl : String
  authorImg : String
  deriving DecidableEq

/-- The record literal pushed for one scraped thread (lines 1031-1043). -/
def scrapedRecord (freshId : String) (t : DomThread) : Record :=
  { id := .str ("scraped-" ++ freshId), text := .str t.content,
    author := .str t.author, time := .str t.time, likes := .str t.likes,
    isReply := false, replies := [], authorUrl := .str t.authorUrl,
    isChannelOwner := .bool false, isMember := false,
    authorImg := some (.str t.authorImg) }

/-- The scrape loop: threads whose content and author are both non-empty are
turned into records, consuming one fresh synthetic id each; all others are
skipped. -/
def emergencyScrape (fresh : Nat → String) : List DomThread → Nat → List Record × Nat
  | [], n => ([], n)
  | t :: rest, n =>
    if t.content ≠ "" ∧ t.author ≠ "" then
      let (rs, n') := emergencyScrape fresh rest (n + 1)
      (scrapedRecord (fresh n) t :: rs, n')
    else emergencyScrape fresh rest n

/-- The fallback stage of `extractComments`: after the barriers, the final
snapshot `finalComments` is read from the database, and only when
`finalComments.length === 0` does the emergency DOM scrape run and push into
it.  The Boolean of the result records whether the scrape ran. -/
def emergencyStage (finalComments : List Record) (dom : List DomThread)
    (fresh : Nat → String) : List Record × Bool :=
  if finalComments.length = 0 then
    (finalComments ++ (emergencyScrape fresh dom 0).1, true)
  else (finalComments, false)

/-- C7: the Fallback Extractor runs if and only if the final snapshot read
after the completion barriers has zero records; in particular a snapshot of
exactly one record never triggers it, and a non-empty snapshot passes
through the stage unchanged. -/
theorem claim_C7_fallback_gating :
    ∀ (fc : List Record) (dom : List DomThread) (fresh : Nat → String),
      ((emergencyStage fc dom fresh).2 = true ↔ fc.length = 0) ∧
      (fc.length = 1 → (emergencyStage fc dom fresh).2 = false) ∧
      (fc.length ≠ 0 → (emergencyStage fc dom fresh).1 = fc) := by
  intro fc dom fresh
  refine ⟨⟨?_, ?_⟩, ?_, ?_⟩
  · intro h
    by_cases hl : fc.length = 0
    · exact hl
    · simp [emergencyStage, hl] at h
  · intro h; simp [emergencyStage, h]
  · intro h; simp [emergencyStage, h]
  · intro h; simp [emergencyStage, h]

/-- Concrete instance of the fallback gating: a snapshot holding exactly one
record is returned unchanged and the scrape does not run, even though the
rendered DOM would have yielded records. -/
theorem claim_C7_fallback_gating_witness :
    (emergencyStage [{ id := JsonV.str "c1" }]
        [⟨"text", "author", "", "0", "", ""⟩] (fun _ => "rnd")).2 = false ∧
    (emergencyStage [{ id := JsonV.str "c1" }]
        [⟨"text", "author", "", "0", "", ""⟩] (fun _ => "rnd")).1 =
      [{ id := JsonV.str "c1" }] :=
  ⟨(claim_C7_fallback_gating _ _ _).2.1 (by decide),
   (claim_C7_fallback_gating _ _ _).2.2 (by decide)⟩

/-! ### Reply-token dedup loop (`extractComments`, page-script.js lines 915-982)

Each batch's `result.replyTokens` is walked; for each descriptor a dedup key
is computed (`replyToken.token?.continuationCommand?.token ||
replyToken.token?.token || JSON.stringify(replyToken.token)`), descriptors
whose key is already in `processedReplyTokens` are skipped with `continue`,
and the rest are recorded in the set and enqueued on the reply queue. -/

/-- A reply-token descriptor as pushed by `processCommentThread`:
`\x7b token, parentId \x7d`. -/
structure ReplyDescriptor where
  token : JsonV
  parentId : Option JsonV
  deriving DecidableEq

/-- The dedup key of a descriptor's token value (line 958-960). -/
def dedupKeyVal (tok : JsonV) : JsonV :=
  firstTruthy
    [chain (chain (some tok) "continuationCommand") "token",
     chain (some tok) "token"]
    (.str (stringify tok))

/-- One iteration of the dedup loop: state is (`processedReplyTokens`,
tasks enqueued so far). -/
def processReplyToken (st : List JsonV × List ReplyDescriptor)
    (d : ReplyDescriptor) : List JsonV × List ReplyDescriptor :=
  let key := dedupKeyVal d.token
  if key ∈ st.1 then st else (key :: st.1, st.2 ++ [d])

/-- Dedup processing of all descriptors of one batch, in order. -/
def processReplyBatch (batch : List ReplyDescriptor)
    (st : List JsonV × List ReplyDescriptor) : List JsonV × List ReplyDescriptor :=
  batch.foldl processReplyToken st

/-- Dedup processing across the batches of one harvest session; the
processed-token set and the enqueued-task list persist across batches. -/
def processSession (batches : List (List ReplyDescriptor))
    (st : List JsonV × List ReplyDescriptor) : List JsonV × List ReplyDescriptor :=
  batches.foldl (fun st b => processReplyBatch b st) st

/-- The invariant of the dedup loop relative to the initial set `s₀`: the
enqueued keys are pairwise distinct, recorded in the set, disjoint from
`s₀`, and the set only grows. -/
def dedupInv (s₀ : List JsonV) (st : List JsonV × List ReplyDescriptor) : Prop :=
  (st.2.map (fun d => dedupKeyVal d.token)).Nodup ∧
  (∀ k ∈ st.2.map (fun d => dedupKeyVal d.token), k ∈ st.1) ∧
  (∀ k ∈ st.2.map (fun d => dedupKeyVal d.token), k ∉ s₀) ∧
  (∀ k ∈ s₀, k ∈ st.1)

theorem processReplyToken_inv (s₀ : List JsonV)
    (st : List JsonV × List ReplyDescriptor) (d : ReplyDescriptor)
    (h : dedupInv s₀ st) : dedupInv s₀ (processReplyToken st d) := by
  obtain ⟨hnd, hset, hdis, hsub⟩ := h
  by_cases hk : dedupKeyVal d.token ∈ st.1
  · simpa [processReplyToken, hk] using ⟨hnd, hset, hdis, hsub⟩
  · simp only [processReplyToken, hk, if_false, ite_false]
    refine ⟨?_, ?_, ?_, ?_⟩
    · rw [List.map_append]
      apply List.Nodup.append hnd (by simp)
      intro x hx hx2
      simp only [List.map_cons, List.map_nil, List.mem_singleton] at hx2
      exact hk (hx2 ▸ hset x hx)
    · intro k hk2
      rw [List.map_append] at hk2
      rcases List.mem_append.mp hk2 with h2 | h2
      · exact List.mem_cons_of_mem _ (hset k h2)
      · simp only [List.map_cons, List.map_nil, List.mem_singleton] at h2
        exact h2 ▸ List.mem_cons_self _ _
    · intro k hk2
      rw [List.map_append] at hk2
      rcases List.mem_append.mp hk2 with h2 | h2
      · exact hdis k h2
      · simp only [List.map_cons, List.map_nil, List.mem_singleton] at h2
        exact fun hmem => hk (h2 ▸ hsub _ hmem)
    · intro k hmem
      exact List.mem_cons_of_mem _ (hsub k hmem)

theorem processReplyBatch_inv (s₀ : List JsonV) (batch : List ReplyDescriptor) :
    ∀ st, dedupInv s₀ st → dedupInv s₀ (processReplyBatch batch st) := by
  induction batch with
  | nil => intro st h; simpa [processReplyBatch]
  | cons d rest ih =>
    intro st h
    have h1 := processReplyToken_inv s₀ st d h
    simpa [processReplyBatch] using ih (processReplyToken st d) h1

theorem processSession_inv (s₀ : List JsonV) (batches : List (List ReplyDescriptor)) :
    ∀ st, dedupInv s₀ st → dedupInv s₀ (processSession batches st) := by
  induction batches with
  | nil => intro st h; simpa [processSession]
  | cons b rest ih =>
    intro st h
    have h1 := processReplyBatch_inv s₀ b st h
    simpa [processSession] using ih (processReplyBatch b st) h1

/-- C1: reply-token dedup.  First part: a descriptor whose dedup key is
already in the processed-token set is silently dropped (the state is
unchanged, so nothing is enqueued).  Second part: over the batches of one
session, no two enqueued reply-fetch tasks ever share a dedup key, and no
enqueued task's key was in the set when the session state started — so each
unique dedup key is handed to the fetch queue at most once. -/
theorem claim_C1_reply_dedup :
    (∀ (st : List JsonV × List ReplyDescriptor) (d : ReplyDescriptor),
      dedupKeyVal d.token ∈ st.1 → processReplyToken st d = st) ∧
    (∀ (batches : List (List ReplyDescriptor)) (s₀ : List JsonV),
      ((processSession batches (s₀, [])).2.map
        (fun d => dedupKeyVal d.token)).Nodup ∧
      (∀ d ∈ (processSession batches (s₀, [])).2, dedupKeyVal d.token ∉ s₀)) := by
  constructor
  · intro st d h
    simp [processReplyToken, h]
  · intro batches s₀
    have hinit : dedupInv s₀ (s₀, []) := by
      refine ⟨by simp, by simp, by simp, fun k h => h⟩
    have hinv := processSession_inv s₀ batches (s₀, []) hinit
    exact ⟨hinv.1, fun d hd =>
      hinv.2.2.1 (dedupKeyVal d.token) (List.mem_map_of_mem _ hd)⟩

/-- Concrete instance of the dedup claim: a duplicated token across two
batches is enqueued only once, and a token whose key is pre-recorded is
dropped without touching the state. -/
theorem claim_C1_reply_dedup_witness :
    processReplyToken ([dedupKeyVal (JsonV.str "A")], [])
        ⟨JsonV.str "A", none⟩ = ([dedupKeyVal (JsonV.str "A")], []) ∧
    ((processSession
        [[⟨JsonV.str "A", none⟩, ⟨JsonV.str "A", some (JsonV.str "p")⟩],
         [⟨JsonV.str "A", none⟩, ⟨JsonV.str "B", none⟩]] ([], [])).2.map
      (fun d => dedupKeyVal d.token)).Nodup :=
  ⟨claim_C1_reply_dedup.1 _ _ (by simp),
   (claim_C1_reply_dedup.2
     [[⟨JsonV.str "A", none⟩, ⟨JsonV.str "A", some (JsonV.str "p")⟩],
      [⟨JsonV.str "A", none⟩, ⟨JsonV.str "B", none⟩]] []).1⟩

/-! ### Durable Sink storage semantics
(`initDB` lines 656-668, `saveCommentBatch` lines 680-696,
`getAllComments` lines 698-706)

The object store is created with `keyPath: 'id'`, so `store.put(c)` upserts
under the record's `id` value.  `saveCommentBatch` first assigns
`Math.random().toString(36).substr(2, 9)` to any record whose `id` is falsy
and then puts every record.  The random id supply is abstracted by the
oracle `fresh`; `fresh n ≠ ""` holds for every draw except the
measure-zero case `Math.random() === 0`. -/

/-- The id-assignment pass of `saveCommentBatch`
(`if (!c.id) c.id = Math.random().toString(36).substr(2, 9)`), threading the
index of the next random draw. -/
def assignBatch (fresh : Nat → String) : List Record → Nat → List Record × Nat
  | [], n => ([], n)
  | c :: rest, n =>
    if jsTruthy c.id then
      let (cs, n') := assignBatch fresh rest n
      (c :: cs, n')
    else
      let (cs, n') := assignBatch fresh rest (n + 1)
      ({ c with id := JsonV.str (fresh n) } :: cs, n')

/-- `store.put(c)` for every record of the batch, in order: an upsert keyed
by the record's `id`. -/
def putAll (ws : List Record) (db : List (JsonV × Record)) : List (JsonV × Record) :=
  mergeMap (ws.map (fun c => (c.id, c))) db

/-- One `saveCommentBatch(db, comments)` call: assign missing ids, put all.
Returns the updated store, the records as written, and the next draw index. -/
def saveCommentBatch (fresh : Nat → String) (db : List (JsonV × Record))
    (cs : List Record) (n : Nat) : List (JsonV × Record) × List Record × Nat :=
  let (ws, n') := assignBatch fresh cs n
  (putAll ws db, ws, n')

/-- A whole session of batch writes starting from the cleared store
(`clearCommentStore` runs before the loop); also accumulates the written
records in write order. -/
def dbSession (fresh : Nat → String) (batches : List (List Record)) :
    List (JsonV × Record) × List Record × Nat :=
  batches.foldl
    (fun acc cs =>
      let r := saveCommentBatch fresh acc.1 cs acc.2.2
      (r.1, acc.2.1 ++ r.2.1, r.2.2))
    ([], [], 0)

/-- `getAllComments`: the final snapshot is every stored record. -/
def getAllComments (db : List (JsonV × Record)) : List Record :=
  db.map (fun p => p.2)

theorem mapSet_keys_mem {K V : Type} [DecidableEq K]
    (s : List (K × V)) (k : K) (v : V) (x : K) :
    x ∈ (mapSet s k v).map Prod.fst ↔ x ∈ s.map Prod.fst ∨ x = k := by
  induction s with
  | nil => simp [mapSet]
  | cons p rest ih =>
    by_cases hp : p.1 = k
    · rw [show mapSet (p :: rest) k v = (k, v) :: rest by
        cases p; simp [mapSet] at hp ⊢; simp [hp]]
      subst hp
      simp [or_comm, or_left_comm]
    · rw [show mapSet (p :: rest) k v = p :: mapSet rest k v by
        cases p; simp [mapSet] at hp ⊢; simp [hp]]
      simp [ih, or_assoc]

theorem mapSet_keys_nodup {K V : Type} [DecidableEq K]
    (s : List (K × V)) (k : K) (v : V)
    (h : (s.map Prod.fst).Nodup) : ((mapSet s k v).map Prod.fst).Nodup := by
  induction s with
  | nil => simp [mapSet]
  | cons p rest ih =>
    simp only [List.map_cons, List.nodup_cons] at h
    by_cases hp : p.1 = k
    · rw [show mapSet (p :: rest) k v = (k, v) :: rest by
        cases p; simp [mapSet] at hp ⊢; simp [hp]]
      simp only [List.map_cons, List.nodup_cons]
      exact ⟨hp ▸ h.1, h.2⟩
    · rw [show mapSet (p :: rest) k v = p :: mapSet rest k v by
        cases p; simp [mapSet] at hp ⊢; simp [hp]]
      simp only [List.map_cons, List.nodup_cons]
      refine ⟨fun hmem => ?_, ih h.2⟩
      rcases (mapSet_keys_mem rest k v p.1).mp hmem with h2 | h2
      · exact h.1 h2
      · exact hp h2

theorem mapSet_entries {K V : Type} [DecidableEq K]
    (s : List (K × V)) (k : K) (v : V) (p : K × V)
    (h : p ∈ mapSet s k v) : p ∈ s ∨ p = (k, v) := by
  induction s with
  | nil => simpa [mapSet] using h
  | cons q rest ih =>
    by_cases hq : q.1 = k
    · rw [show mapSet (q :: rest) k v = (k, v) :: rest by
        cases q; simp [mapSet] at hq ⊢; simp [hq]] at h
      rcases List.mem_cons.mp h with h2 | h2
      · exact Or.inr h2
      · exact Or.inl (List.mem_cons_of_mem _ h2)
    · rw [show mapSet (q :: rest) k v = q :: mapSet rest k v by
        cases q; simp [mapSet] at hq ⊢; simp [hq]] at h
      rcases List.mem_cons.mp h with h2 | h2
      · exact Or.inl (h2 ▸ List.mem_cons_self _ _)
      · rcases ih h2 with h3 | h3
        · exact Or.inl (List.mem_cons_of_mem _ h3)
        · exact Or.inr h3

theorem mergeMap_entries {K V : Type} [DecidableEq K]
    (upd : List (K × V)) :
    ∀ (db : List (K × V)) (p : K × V), p ∈ mergeMap upd db → p ∈ db ∨ p ∈ upd := by
  induction upd with
  | nil => intro db p h; exact Or.inl (by simpa [mergeMap] using h)
  | cons u rest ih =>
    intro db p h
    simp only [mergeMap, List.foldl_cons] at h
    rcases ih (mapSet db u.1 u.2) p (by simpa [mergeMap] using h) with h2 | h2
    · rcases mapSet_entries db u.1 u.2 p h2 with h3 | h3
      · exact Or.inl h3
      · exact Or.inr (by simp [h3])
    · exact Or.inr (List.mem_cons_of_mem _ h2)

theorem mergeMap_keys_nodup {K V : Type} [DecidableEq K]
    (upd : List (K × V)) :
    ∀ db : List (K × V), (db.map Prod.fst).Nodup →
      ((mergeMap upd db).map Prod.fst).Nodup := by
  induction upd with
  | nil => intro db h; simpa [mergeMap]
  | cons u rest ih =>
    intro db h
    simp only [mergeMap, List.foldl_cons]
    have h1 := mapSet_keys_nodup db u.1 u.2 h
    simpa [mergeMap] using ih (mapSet db u.1 u.2) h1

theorem mergeMap_append {K V : Type} [DecidableEq K]
    (u₁ u₂ db : List (K × V)) :
    mergeMap (u₁ ++ u₂) db = mergeMap u₂ (mergeMap u₁ db) := by
  simp [mergeMap, List.foldl_append]

theorem orO_none {V : Type} (x : Option V) : orO x none = x := by
  cases x <;> rfl

theorem assignBatch_truthy (fresh : Nat → String) (hfr : ∀ m, fresh m ≠ "") :
    ∀ (cs : List Record) (n : Nat) (c : Record),
      c ∈ (assignBatch fresh cs n).1 → jsTruthy c.id = true := by
  intro cs
  induction cs with
  | nil => intro n c h; simp [assignBatch] at h
  | cons c0 rest ih =>
    intro n c h
    by_cases h0 : jsTruthy c0.id
    · simp only [assignBatch, h0, if_true, ite_true] at h
      rcases List.mem_cons.mp h with h2 | h2
      · exact h2 ▸ h0
      · exact ih n c h2
    · simp only [assignBatch, h0, Bool.false_eq_true, if_false, ite_false] at h
      rcases List.mem_cons.mp h with h2 | h2
      · subst h2
        simp only [jsTruthy]
        simpa using hfr n
      · exact ih (n + 1) c h2

theorem dbSession_shape (fresh : Nat → String) (batches : List (List Record)) :
    (dbSession fresh batches).1 =
      putAll (dbSession fresh batches).2.1 [] := by
  suffices h : ∀ (acc : List (JsonV × Record) × List Record × Nat),
      acc.1 = putAll acc.2.1 [] →
      (batches.foldl
        (fun acc cs =>
          let r := saveCommentBatch fresh acc.1 cs acc.2.2
          (r.1, acc.2.1 ++ r.2.1, r.2.2)) acc).1 =
      putAll (batches.foldl
        (fun acc cs =>
          let r := saveCommentBatch fresh acc.1 cs acc.2.2
          (r.1, acc.2.1 ++ r.2.1, r.2.2)) acc).2.1 [] by
    exact h ([], [], 0) (by simp [putAll, mergeMap])
  induction batches with
  | nil => intro acc h; simpa
  | cons cs rest ih =>
    intro acc h
    simp only [List.foldl_cons]
    apply ih
    simp only [saveCommentBatch, putAll]
    rw [h, List.map_append, mergeMap_append]
    rfl

theorem dbSession_truthy (fresh : Nat → String) (hfr : ∀ m, fresh m ≠ "")
    (batches : List (List Record)) :
    ∀ c ∈ (dbSession fresh batches).2.1, jsTruthy c.id = true := by
  suffices h : ∀ (acc : List (JsonV × Record) × List Record × Nat),
      (∀ c ∈ acc.2.1, jsTruthy c.id = true) →
      ∀ c ∈ (batches.foldl
        (fun acc cs =>
          let r := saveCommentBatch fresh acc.1 cs acc.2.2
          (r.1, acc.2.1 ++ r.2.1, r.2.2)) acc).2.1, jsTruthy c.id = true by
    exact h ([], [], 0) (by simp)
  induction batches with
  | nil => intro acc h; simpa
  | cons cs rest ih =>
    intro acc h
    simp only [List.foldl_cons]
    apply ih
    intro c hc
    simp only [saveCommentBatch] at hc
    rcases List.mem_append.mp hc with h2 | h2
    · exact h c h2
    · exact assignBatch_truthy fresh hfr cs acc.2.2 c h2

/-- C10: the Durable Sink keys storage by record identity and upserts.  For
every random-id oracle whose draws are non-empty (every draw except
`Math.random() === 0`) and every sequence of batch writes in a session:
the store holds at most one entry per id; every stored entry sits under the
(truthy, hence non-empty) `id` of the record it holds; and the lookup of any
key in the final store is exactly the last record written with that id. -/
theorem claim_C10_sink_upsert :
    ∀ (fresh : Nat → String) (batches : List (List Record)),
      (∀ m, fresh m ≠ "") →
      (((dbSession fresh batches).1.map Prod.fst).Nodup ∧
       (∀ p ∈ (dbSession fresh batches).1,
         p.1 = p.2.id ∧ jsTruthy p.2.id = true) ∧
       (∀ k, mapGet (dbSession fresh batches).1 k =
         lastVal ((dbSession fresh batches).2.1.map (fun c => (c.id, c))) k)) := by
  intro fresh batches hfr
  have hshape := dbSession_shape fresh batches
  refine ⟨?_, ?_, ?_⟩
  · rw [hshape]
    exact mergeMap_keys_nodup _ [] (by simp)
  · intro p hp
    rw [hshape] at hp
    rcases mergeMap_entries _ [] p hp with h2 | h2
    · cases h2
    · rcases List.mem_map.mp h2 with ⟨c, hc, hpc⟩
      subst hpc
      exact ⟨rfl, dbSession_truthy fresh hfr batches c hc⟩
  · intro k
    rw [hshape]
    rw [show putAll (dbSession fresh batches).2.1 [] =
      mergeMap ((dbSession fresh batches).2.1.map (fun c => (c.id, c))) [] from rfl]
    rw [mergeMap_get]
    simp [mapGet, orO_none]

/-- Concrete instance of the sink claim: two writes of the same id across
two batches leave one entry, holding the record written last. -/
theorem claim_C10_sink_upsert_witness :
    (((dbSession (fun _ => "rnd")
        [[{ id := JsonV.str "x", text := JsonV.str "first" }],
         [{ id := JsonV.str "x", text := JsonV.str "second" }]]).1.map
      Prod.fst).Nodup) ∧
    mapGet (dbSession (fun _ => "rnd")
        [[{ id := JsonV.str "x", text := JsonV.str "first" }],
         [{ id := JsonV.str "x", text := JsonV.str "second" }]]).1
      (JsonV.str "x") =
      lastVal ((dbSession (fun _ => "rnd")
        [[{ id := JsonV.str "x", text := JsonV.str "first" }],
         [{ id := JsonV.str "x", text := JsonV.str "second" }]]).2.1.map
        (fun c => (c.id, c))) (JsonV.str "x") :=
  by
  have hfr : ∀ m : Nat, (fun _ : Nat => "rnd") m ≠ "" := fun m => by
    show ("rnd" : String) ≠ ""
    decide
  exact ⟨(claim_C10_sink_upsert (fun _ => "rnd")
      [[{ id := JsonV.str "x", text := JsonV.str "first" }],
       [{ id := JsonV.str "x", text := JsonV.str "second" }]] hfr).1,
    (claim_C10_sink_upsert (fun _ => "rnd")
      [[{ id := JsonV.str "x", text := JsonV.str "first" }],
       [{ id := JsonV.str "x", text := JsonV.str "second" }]] hfr).2.2
      (JsonV.str "x")⟩

/-! ### Entity Resolver (`resolveComment`, page-script.js lines 1099-1200)

The helper definitions mirror the local computations of `resolveComment` one
by one, so that the determinability of identity, author and text can be
stated over exactly the extraction chains the code runs. -/

/-- `let id = viewModel.commentKey || viewModel.commentId || ''` (line 1103). -/
def resolveId0 (vm : JsonV) : JsonV :=
  firstTruthy [idx vm "commentKey", idx vm "commentId"] (.str "")

/-- Payload lookup and `const source = payload || viewModel`
(lines 1105-1111): the entity store is consulted under the id when the id is
truthy, and the view model itself is the fallback source. -/
def resolveSource (vm : JsonV) (store : EntityStore) : JsonV :=
  let id0 := resolveId0 vm
  let payload : Option JsonV := if jsTruthy id0 then mapGet store id0 else none
  match payload with
  | some p => if jsTruthy p then p else vm
  | none => vm

/-- The nested-content fallback of `extractText` (lines 1135-1139). -/
def extractTextNested (o : JsonV) : JsonV :=
  let nested := firstTruthy
    [getVal "properties.content.content" o,
     getVal "commentEntityPayload.properties.content.content" o] .null
  if jsTruthy nested then nested else .str ""

/-- One styled run of a runs array:
`r.text || r.emoji?.image?.accessibility?.accessibilityData?.label || ''`,
coerced to a string by `join` (line 1132). -/
def runText (r : JsonV) : String :=
  jsToStr (firstTruthy
    [idx r "text",
     chain (chain (chain (chain (idx r "emoji") "image") "accessibility")
       "accessibilityData") "label"]
    (.str ""))

/-- `extractText` (lines 1124-1140): a pre-formatted `simpleText` string
wins, then a runs array is concatenated, then the nested content path of
normalized payloads; otherwise the empty string. -/
def extractText (obj : Option JsonV) : JsonV :=
  match obj with
  | none => .str ""
  | some o =>
    if jsTruthy o then
      let st := (idx o "simpleText").getD .null
      if jsTruthy st then st
      else
        match idx o "runs" with
        | some (.arr runs) => .str (String.join (runs.map runText))
        | _ => extractTextNested o
    else .str ""

/-- The text chain of `resolveComment` (lines 1143-1146). -/
def resolveText (source : JsonV) : JsonV :=
  jsOrV (extractText (getVal "contentText" source))
    (jsOrV (extractText (getVal "properties.content" source))
      (jsOrV (extractText (getVal "commentEntityPayload.properties.content" source))
        (extractText (some source))))

/-- The author chain of `resolveComment` without its `'Unknown'` default
(lines 1149-1151): falsy exactly when no chain element yields an author. -/
def resolveAuthorRaw (source : JsonV) : JsonV :=
  jsOrO (getVal "authorText.simpleText" source)
    (jsOrO (getVal "author.displayName" source)
      (jsOrO (getVal "commentEntityPayload.author.displayName" source) (.str "")))

/-- The full author chain, `... || 'Unknown'`. -/
def resolveAuthor (source : JsonV) : JsonV :=
  jsOrV (resolveAuthorRaw source) (.str "Unknown")

/-- The time chain (lines 1154-1156). -/
def resolveTime (source : JsonV) : JsonV :=
  jsOrO (getVal "publishedTimeText.runs.0.text" source)
    (jsOrO (getVal "properties.publishedTime" source)
      (jsOrO (getVal "commentEntityPayload.properties.publishedTime" source) (.str "")))

/-- The likes chain (lines 1159-1160). -/
def resolveLikes (source : JsonV) : JsonV :=
  jsOrO (getVal "voteCount.simpleText" source)
    (jsOrO (getVal "toolbar.likeCount" source) (.str "0"))

/-- `String.prototype.startsWith`. -/
def strStarts (s t : String) : Bool := leadMatch s.toList t.toList

/-- Translation of `if (authorUrl && !authorUrl.startsWith('http'))
authorUrl = 'https://www.youtube.com' + authorUrl` (lines 1168-1170); a
non-string truthy value is passed through unchanged (the source would throw
there, a case unreachable for well-formed page data). -/
def fixAuthorUrl (u : JsonV) : JsonV :=
  match u with
  | .str s =>
    if s ≠ "" ∧ ¬ strStarts s "http"
    then .str ("https://www.youtube.com" ++ s) else .str s
  | v => v

/-- The author-url chain (lines 1166-1170). -/
def resolveAuthorUrl (source : JsonV) : JsonV :=
  fixAuthorUrl
    (jsOrO (getVal "authorEndpoint.browseEndpoint.canonicalBaseUrl" source)
      (jsOrO (getVal "authorEndpoint.commandMetadata.webCommandMetadata.url" source)
        (.str "")))

/-- `getVal('authorIsChannelOwner', source) || false` (line 1173). -/
def resolveIsChannelOwner (source : JsonV) : JsonV :=
  jsOrO (getVal "authorIsChannelOwner" source) (.bool false)

/-- `b.liveChatAuthorBadgeRenderer?.tooltip?.includes('Member')`; a
non-string tooltip yields false (the source would throw there). -/
def badgeIsMember (b : JsonV) : Bool :=
  match chain (idx b "liveChatAuthorBadgeRenderer") "tooltip" with
  | some (.str s) => strIncludes s "Member"
  | _ => false

/-- The member-label logic (lines 1176-1188): the sponsor badge sets the
label, and a member badge found among `authorBadges` overwrites it; the
badge list is emptied by the tracking-params heuristic. -/
def resolveMember (source : JsonV) : JsonV :=
  let fromSponsor :=
    match getVal "sponsorCommentBadge" source with
    | some sb =>
      if jsTruthy sb
      then jsOrO (chain (idx sb "sponsorCommentBadgeRenderer") "tooltip") (.str "Member")
      else .str ""
    | none => .str ""
  let badges :=
    if jsTruthyO (getVal "actionButtons.commentActionButtonsRenderer.protoCreation.contents.0.commentActionButtonRenderer.trackingParams" source)
    then [] else toArr (getVal "authorBadges" source)
  match badges.find? badgeIsMember with
  | some b => jsOrO (chain (idx b "liveChatAuthorBadgeRenderer") "tooltip") (.str "Member")
  | none => fromSponsor

/-- The id after the fallback `if (!id) id = getVal('commentId', source)`
(lines 1192-1194). -/
def resolveFinalId (vm source : JsonV) : JsonV :=
  let id0 := resolveId0 vm
  if jsTruthy id0 then id0 else (getVal "commentId" source).getD .null

/-- Translation of `resolveComment(viewModel, entityStore)`: a falsy view
model resolves to `null`; otherwise the record is built from the source
(entity-store payload or the view model itself), and `null` is returned only
by the final `if (!text && !author && !id)` check. -/
def resolveComment (vm : JsonV) (store : EntityStore) : Option Record :=
  if jsTruthy vm then
    let source := resolveSource vm store
    let text := resolveText source
    let author := resolveAuthor source
    let id := resolveFinalId vm source
    if !jsTruthy text && !jsTruthy author && !jsTruthy id then none
    else
      some { id := id, author := author, text := text,
             time := resolveTime source, likes := resolveLikes source,
             authorUrl := resolveAuthorUrl source,
             isChannelOwner := resolveIsChannelOwner source,
             isMember := jsTruthy (resolveMember source),
             member := resolveMember source,
             authorImg := getVal "authorThumbnail.thumbnails.0.url" source }
  else none

theorem resolveAuthor_truthy (source : JsonV) :
    jsTruthy (resolveAuthor source) = true := by
  unfold resolveAuthor jsOrV
  by_cases h : jsTruthy (resolveAuthorRaw source)
  · simp [h]
  · simp only [h, Bool.false_eq_true, if_false, ite_false]
    decide

theorem resolveComment_isSome (vm : JsonV) (store : EntityStore)
    (h : jsTruthy vm = true) : (resolveComment vm store).isSome = true := by
  unfold resolveComment
  simp [h, resolveAuthor_truthy]

theorem resolveComment_root_fields (vm : JsonV) (store : EntityStore)
    (r : Record) (h : resolveComment vm store = some r) :
    r.parentId = none ∧ r.isReply = false := by
  unfold resolveComment at h
  by_cases hvm : jsTruthy vm
  · simp only [hvm, if_true, ite_true] at h
    split at h
    · cases h
    · cases h; exact ⟨rfl, rfl⟩
  · simp [hvm] at h

theorem idx_falsy (vm : JsonV) (h : jsTruthy vm = false) (k : String) :
    idx vm k = none := by
  cases vm with
  | null => rfl
  | bool b => rfl
  | str s =>
    have hs : s = "" := by simpa [jsTruthy] using h
    subst hs
    simp only [idx]
    cases strToNat? k <;> simp
  | arr xs => simp [jsTruthy] at h
  | obj fs => simp [jsTruthy] at h

theorem getVal_falsy (vm : JsonV) (h : jsTruthy vm = false) (p : String) :
    getVal p vm = none := by
  simp [getVal, h]

theorem resolveId0_falsy (vm : JsonV) (h : jsTruthy vm = false) :
    resolveId0 vm = .str "" := by
  simp [resolveId0, idx_falsy vm h, firstTruthy]

theorem resolveSource_falsy (vm : JsonV) (store : EntityStore)
    (h : jsTruthy vm = false) : resolveSource vm store = vm := by
  simp [resolveSource, resolveId0_falsy vm h, jsTruthy]

theorem extractText_some_falsy (vm : JsonV) (h : jsTruthy vm = false) :
    extractText (some vm) = .str "" := by
  simp [extractText, h]

theorem resolveText_falsy (vm : JsonV) (h : jsTruthy vm = false) :
    jsTruthy (resolveText vm) = false := by
  unfold resolveText
  rw [getVal_falsy vm h, getVal_falsy vm h, getVal_falsy vm h,
    extractText_some_falsy vm h]
  decide

theorem resolveAuthorRaw_falsy (vm : JsonV) (h : jsTruthy vm = false) :
    jsTruthy (resolveAuthorRaw vm) = false := by
  unfold resolveAuthorRaw
  rw [getVal_falsy vm h, getVal_falsy vm h, getVal_falsy vm h]
  decide

theorem resolveFinalId_falsy (vm : JsonV) (h : jsTruthy vm = false) :
    jsTruthy (resolveFinalId vm vm) = false := by
  unfold resolveFinalId
  rw [resolveId0_falsy vm h, getVal_falsy vm h]
  decide

/-- C8: the Entity Resolver returns `null` only when none of identity, author
or text is determinable from the node (all three extraction chains of the
code come up falsy); whenever at least one of the three is determinable it
returns a record; in particular an empty text field alone never aborts
resolution. -/
theorem claim_C8_resolver_null :
    ∀ (vm : JsonV) (store : EntityStore),
      (resolveComment vm store = none →
        jsTruthy (resolveFinalId vm (resolveSource vm store)) = false ∧
        jsTruthy (resolveText (resolveSource vm store)) = false ∧
        jsTruthy (resolveAuthorRaw (resolveSource vm store)) = false) ∧
      ((jsTruthy (resolveFinalId vm (resolveSource vm store)) = true ∨
        jsTruthy (resolveText (resolveSource vm store)) = true ∨
        jsTruthy (resolveAuthorRaw (resolveSource vm store)) = true) →
        (resolveComment vm store).isSome = true) ∧
      (jsTruthy (resolveText (resolveSource vm store)) = false →
        jsTruthy (resolveFinalId vm (resolveSource vm store)) = true →
        (resolveComment vm store).isSome = true) := by
  intro vm store
  by_cases hvm : jsTruthy vm
  · have hsome := resolveComment_isSome vm store hvm
    refine ⟨fun hnone => ?_, fun _ => hsome, fun _ _ => hsome⟩
    rw [hnone] at hsome
    cases hsome
  · have hvmf : jsTruthy vm = false := by simpa using hvm
    have hsrc := resolveSource_falsy vm store hvmf
    refine ⟨fun _ => ?_, fun hor => ?_, fun _ hid => ?_⟩
    · rw [hsrc]
      exact ⟨resolveFinalId_falsy vm hvmf, resolveText_falsy vm hvmf,
        resolveAuthorRaw_falsy vm hvmf⟩
    · rw [hsrc] at hor
      rcases hor with h | h | h
      · rw [resolveFinalId_falsy vm hvmf] at h; cases h
      · rw [resolveText_falsy vm hvmf] at h; cases h
      · rw [resolveAuthorRaw_falsy vm hvmf] at h; cases h
    · rw [hsrc, resolveFinalId_falsy vm hvmf] at hid
      cases hid

/-- Concrete instance of the resolver claim: a node carrying only a comment
id — empty text, no author chains — still resolves to a record. -/
theorem claim_C8_resolver_null_witness :
    (resolveComment (JsonV.obj [("commentId", JsonV.str "c1")]) []).isSome = true :=
  (claim_C8_resolver_null (JsonV.obj [("commentId", JsonV.str "c1")]) []).2.2
    (by decide) (by decide)

/-! ### Thread processing and reply fetching
(`processCommentThread` lines 1204-1407, `fetchReplies` lines 1410-1510)

The network behind `fetchWithRetry` + `response.json()` is abstracted by
`NetCfg.net`, mapping a continuation-token value to the parsed response body
of a successful call (`none` for a non-ok response or exhausted retries);
`NetCfg.creds` tells whether `INNERTUBE_API_KEY` and `INNERTUBE_CONTEXT` are
available.  The mutual recursion is fuel-indexed: the source bounds thread
nesting by the `depth > 100` cap but lets reply-continuation chains recurse
unboundedly, so every theorem below is proved for every fuel value. -/

/-- Network and credential configuration of a session. -/
structure NetCfg where
  creds : Bool
  net : JsonV → Option JsonV

/-- `r.contentText?.runs?.map(x => x.text).join('')` with the trailing
`|| ''`: absent or non-array runs yield the empty string. -/
def runsJoinText (runs : Option JsonV) : String :=
  match runs with
  | some (.arr xs) => String.join (xs.map (fun x => jsToStr ((idx x "text").getD .null)))
  | _ => ""

/-- The legacy root-comment literal of `processCommentThread`
(lines 1220-1236), including the author-url http fix. -/
def legacyRoot (cr : JsonV) : Record :=
  { id := jsOrO (idx cr "commentId") (.str ""),
    author := jsOrO (chain (idx cr "authorText") "simpleText") (.str "Unknown"),
    text := .str (runsJoinText (chain (idx cr "contentText") "runs")),
    time := jsOrO (chain (chain (chain (idx cr "publishedTimeText") "runs") "0") "text")
      (.str ""),
    likes := jsOrO (chain (idx cr "voteCount") "simpleText") (.str "0"),
    authorUrl := fixAuthorUrl
      (jsOrO (chain (chain (idx cr "authorEndpoint") "browseEndpoint") "canonicalBaseUrl")
        (jsOrO (chain (chain (chain (idx cr "authorEndpoint") "commandMetadata")
          "webCommandMetadata") "url") (.str ""))),
    isChannelOwner := jsOrO (idx cr "authorIsChannelOwner") (.bool false),
    isMember :=
      (match idx cr "authorBadges" with
       | some (.arr bs) => bs.any badgeIsMember
       | _ => false),
    member :=
      (match idx cr "authorBadges" with
       | some (.arr bs) =>
         match bs.find? badgeIsMember with
         | some b => jsOrO (chain (idx b "liveChatAuthorBadgeRenderer") "tooltip") (.str "")
         | none => .str ""
       | _ => .str ""),
    authorImg := some (jsOrO
      (chain (chain (chain (idx cr "authorThumbnail") "thumbnails") "0") "url") (.str "")),
    isReply := false, parentId := none }

/-- The visible-reply literal of sub-thread branch A (lines 1272-1280):
`\x7b id, author, text, time, likes, isReply: true, parentId: rootComment?.id \x7d`. -/
def subReplyLiteral (r : JsonV) (parentId : Option JsonV) : Record :=
  { id := jsOrO (idx r "commentId") (.str ""),
    author := jsOrO (chain (idx r "authorText") "simpleText") (.str "Unknown"),
    text := .str (runsJoinText (chain (idx r "contentText") "runs")),
    time := jsOrO (chain (chain (chain (idx r "publishedTimeText") "runs") "0") "text")
      (.str ""),
    likes := jsOrO (chain (idx r "voteCount") "simpleText") (.str "0"),
    isReply := true, parentId := parentId }

/-- `const button = cir.button?.buttonRenderer; if (button) token =
button.command || button.navigationEndpoint || button.serviceEndpoint`
(lines 1308-1313 and 1490-1495). -/
def buttonCommand (cir : JsonV) : Option JsonV :=
  match chain (idx cir "button") "buttonRenderer" with
  | some b =>
    if jsTruthy b then
      jsOrOO (idx b "command") (jsOrOO (idx b "navigationEndpoint") (idx b "serviceEndpoint"))
    else none
  | none => none

/-- `r.isReply = true; r.parentId = parentId` applied to a resolved record
(`fetchReplies`, lines 1464-1481). -/
def asReply (pid : Option JsonV) (r : Record) : Record :=
  { r with isReply := true, parentId := pid }

/-- `t.isReply = true; if (rootComment?.id) t.parentId = rootComment.id`
applied to a nested thread's records (lines 1295-1298). -/
def asReplyUnderRoot (root : Option Record) (t : Record) : Record :=
  match root with
  | some rr =>
    if jsTruthy rr.id then { t with isReply := true, parentId := some rr.id }
    else { t with isReply := true }
  | none => { t with isReply := true }

/-- The accumulation of `allTargetItems` in `fetchReplies`
(lines 1448-1458): every `reloadContinuationItemsCommand` /
`appendContinuationItemsAction` item list of the response's actions. -/
def collectTargetItems (data : JsonV) : List JsonV :=
  match idx data "onResponseReceivedEndpoints" with
  | some (.arr actions) =>
    actions.foldl
      (fun acc action =>
        let items := jsOrOO
          (chain (idx action "reloadContinuationItemsCommand") "continuationItems")
          (chain (idx action "appendContinuationItemsAction") "continuationItems")
        match items with
        | some (.arr xs) => if xs.length > 0 then acc ++ xs else acc
        | _ => acc)
      []
  | _ => []

/-- The root-comment resolution of `processCommentThread` (lines 1211-1236):
strategy 1 is the view model through `resolveComment`, strategy 2 the legacy
`commentRenderer` literal. -/
def rootOf (tr : JsonV) (store : EntityStore) : Option Record :=
  let vmNode := (chain (idx tr "commentViewModel") "commentViewModel").getD .null
  if jsTruthy vmNode then resolveComment vmNode store
  else
    let cr := (chain (idx tr "comment") "commentRenderer").getD .null
    if jsTruthy cr then some (legacyRoot cr) else none

/-- `rootComment.isReply = false; results.push(rootComment)` when a root was
resolved (lines 1238-1240). -/
def rootList (rootOpt : Option Record) : List Record :=
  match rootOpt with
  | some rc => [{ rc with isReply := false }]
  | none => []

mutual

/-- Translation of `processCommentThread(threadRenderer, entityStore, depth,
replyTokenCollector)`.  Returns the records pushed, the reply-token
descriptors collected (empty when `useColl` is false, the sequential mode),
and the entity store after the inline reply fetches. -/
def processCommentThread (fuel : Nat) (cfg : NetCfg) (tr : JsonV)
    (store : EntityStore) (depth : Nat) (useColl : Bool) :
    List Record × List ReplyDescriptor × EntityStore :=
  match fuel with
  | 0 => ([], [], store)
  | fuel + 1 =>
    if depth > 100 then ([], [], store)
    else
      let rootComment := rootOf tr store
      let results0 := rootList rootComment
      let repliesRenderer := (chain (idx tr "replies") "commentRepliesRenderer").getD .null
      if jsTruthy repliesRenderer then
        let allSubThreads :=
          toArr (idx repliesRenderer "contents") ++
          toArr (idx repliesRenderer "subThreads") ++
          toArr (chain (chain (idx repliesRenderer "viewReplies") "buttonRenderer")
            "subThreads") ++
          toArr (idx repliesRenderer "continuationItems")
        if allSubThreads.length > 0 then
          let a := processSubItems fuel cfg allSubThreads store rootComment depth useColl
          let b := processViewReplies fuel cfg repliesRenderer a.2.2 rootComment useColl
          let b2 := processContinuations fuel cfg
            (toArr (idx repliesRenderer "continuations")) b.2.2 rootComment useColl
          let c := processLegacyContents fuel cfg
            (toArr (idx repliesRenderer "contents")) b2.2.2 rootComment
          (results0 ++ a.1 ++ b.1 ++ b2.1 ++ c.1,
           a.2.1 ++ b.2.1 ++ b2.2.1, c.2.2)
        else (results0, [], store)
      else (results0, [], store)

/-- The loop over the merged `allSubThreads` (lines 1269-1331). -/
def processSubItems (fuel : Nat) (cfg : NetCfg) (items : List JsonV)
    (store : EntityStore) (root : Option Record) (depth : Nat) (useColl : Bool) :
    List Record × List ReplyDescriptor × EntityStore :=
  match fuel with
  | 0 => ([], [], store)
  | fuel + 1 =>
    match items with
    | [] => ([], [], store)
    | sub :: rest =>
      let one := processSubItem fuel cfg sub store root depth useColl
      let more := processSubItems fuel cfg rest one.2.2 root depth useColl
      (one.1 ++ more.1, one.2.1 ++ more.2.1, more.2.2)

/-- One `allSubThreads` item: visible reply literal, view-model reply,
nested thread (depth + 1, no collector), or reply continuation. -/
def processSubItem (fuel : Nat) (cfg : NetCfg) (sub : JsonV)
    (store : EntityStore) (root : Option Record) (depth : Nat) (useColl : Bool) :
    List Record × List ReplyDescriptor × EntityStore :=
  match fuel with
  | 0 => ([], [], store)
  | fuel + 1 =>
    let cR := (idx sub "commentRenderer").getD .null
    if jsTruthy cR then
      ([subReplyLiteral cR (root.map (fun r => r.id))], [], store)
    else
      let cVM := (chain (idx sub "commentViewModel") "commentViewModel").getD .null
      if jsTruthy cVM then
        match resolveComment cVM store with
        | some r => ([asReply (root.map (fun rr => rr.id)) r], [], store)
        | none => ([], [], store)
      else
        let cTR := (idx sub "commentThreadRenderer").getD .null
        if jsTruthy cTR then
          let nested := processCommentThread fuel cfg cTR store (depth + 1) false
          (nested.1.map (asReplyUnderRoot root), [], nested.2.2)
        else
          let cir := (idx sub "continuationItemRenderer").getD .null
          if jsTruthy cir then
            let tok0 := idx cir "continuationEndpoint"
            let token := if jsTruthyO tok0 then tok0 else buttonCommand cir
            match token with
            | some tk =>
              if jsTruthy tk then
                if useColl then ([], [⟨tk, root.map (fun r => r.id)⟩], store)
                else
                  let fr := fetchReplies fuel cfg tk store (root.map (fun r => r.id))
                  (fr.1.getD [], [], fr.2)
              else ([], [], store)
            | none => ([], [], store)
          else ([], [], store)

/-- The `viewReplies` button continuation, section B (lines 1334-1355); the
token pushed or fetched here is the raw token string. -/
def processViewReplies (fuel : Nat) (cfg : NetCfg) (repliesRenderer : JsonV)
    (store : EntityStore) (root : Option Record) (useColl : Bool) :
    List Record × List ReplyDescriptor × EntityStore :=
  match fuel with
  | 0 => ([], [], store)
  | fuel + 1 =>
    let vr := (idx repliesRenderer "viewReplies").getD .null
    if jsTruthy vr then
      let button := (idx vr "buttonRenderer").getD .null
      if jsTruthy button then
        let command := jsOrOO (idx button "command")
          (jsOrOO (idx button "navigationEndpoint") (idx button "serviceEndpoint"))
        let token := chain (chain command "continuationCommand") "token"
        match token with
        | some tk =>
          if jsTruthy tk then
            if useColl then ([], [⟨tk, root.map (fun r => r.id)⟩], store)
            else
              let fr := fetchReplies fuel cfg tk store (root.map (fun r => r.id))
              (fr.1.getD [], [], fr.2)
          else ([], [], store)
        | none => ([], [], store)
      else ([], [], store)
    else ([], [], store)

/-- The `continuations` array loop, section B2 (lines 1358-1375). -/
def processContinuations (fuel : Nat) (cfg : NetCfg) (conts : List JsonV)
    (store : EntityStore) (root : Option Record) (useColl : Bool) :
    List Record × List ReplyDescriptor × EntityStore :=
  match fuel with
  | 0 => ([], [], store)
  | fuel + 1 =>
    match conts with
    | [] => ([], [], store)
    | cont :: rest =>
      let token := jsOrOO (chain (idx cont "nextContinuationData") "continuation")
        (jsOrOO (chain (chain (chain (idx cont "continuationItemRenderer")
            "continuationEndpoint") "continuationCommand") "token")
          (chain (chain (chain (chain (chain (idx cont "continuationItemRenderer")
            "button") "buttonRenderer") "command") "continuationCommand") "token"))
      let one : List Record × List ReplyDescriptor × EntityStore :=
        match token with
        | some tk =>
          if jsTruthy tk then
            if useColl then ([], [⟨tk, root.map (fun r => r.id)⟩], store)
            else
              let fr := fetchReplies fuel cfg tk store (root.map (fun r => r.id))
              (fr.1.getD [], [], fr.2)
          else ([], [], store)
        | none => ([], [], store)
      let more := processContinuations fuel cfg rest one.2.2 root useColl
      (one.1 ++ more.1, one.2.1 ++ more.2.1, more.2.2)

/-- The second pass over `repliesRenderer.contents`, section C
(lines 1378-1402); always sequential. -/
def processLegacyContents (fuel : Nat) (cfg : NetCfg) (items : List JsonV)
    (store : EntityStore) (root : Option Record) :
    List Record × List ReplyDescriptor × EntityStore :=
  match fuel with
  | 0 => ([], [], store)
  | fuel + 1 =>
    match items with
    | [] => ([], [], store)
    | item :: rest =>
      let one := processLegacyItem fuel cfg item store root
      let more := processLegacyContents fuel cfg rest one.2 root
      (one.1 ++ more.1, [], more.2.2)

/-- One section-C item: resolved reply (renderer or view model) or an inline
reply-continuation fetch. -/
def processLegacyItem (fuel : Nat) (cfg : NetCfg) (item : JsonV)
    (store : EntityStore) (root : Option Record) :
    List Record × EntityStore :=
  match fuel with
  | 0 => ([], store)
  | fuel + 1 =>
    let cR := (idx item "commentRenderer").getD .null
    if jsTruthy cR then
      match resolveComment cR store with
      | some r => ([asReply (root.map (fun rr => rr.id)) r], store)
      | none => ([], store)
    else
      let cVM := (chain (idx item "commentViewModel") "commentViewModel").getD .null
      if jsTruthy cVM then
        match resolveComment cVM store with
        | some r => ([asReply (root.map (fun rr => rr.id)) r], store)
        | none => ([], store)
      else
        let cir := (idx item "continuationItemRenderer").getD .null
        if jsTruthy cir then
          match idx cir "continuationEndpoint" with
          | some tk =>
            if jsTruthy tk then
              let fr := fetchReplies fuel cfg tk store (root.map (fun rr => rr.id))
              (fr.1.getD [], fr.2)
            else ([], store)
          | none => ([], store)
        else ([], store)

/-- Translation of `fetchReplies(endpoint, entityStore, parentId)`: guard on
credentials and a truthy `endpoint?.continuationCommand?.token`, fetch, merge
`frameworkUpdates` into the entity store, then walk the continuation items.
`none` in the first component is the source's `return null`. -/
def fetchReplies (fuel : Nat) (cfg : NetCfg) (endpoint : JsonV)
    (store : EntityStore) (parentId : Option JsonV) :
    Option (List Record) × EntityStore :=
  match fuel with
  | 0 => (none, store)
  | fuel + 1 =>
    let continuation := chain (chain (some endpoint) "continuationCommand") "token"
    if cfg.creds && jsTruthyO continuation then
      match cfg.net (continuation.getD .null) with
      | some data =>
        let store1 :=
          match idx data "frameworkUpdates" with
          | some fu =>
            if jsTruthy fu then mergeEntities (parseEntityStore fu) store else store
          | none => store
        let res := fetchItems fuel cfg (collectTargetItems data) store1 parentId
        (some res.1, res.2)
      | none => (none, store)
    else (none, store)

/-- The loop over `allTargetItems` in `fetchReplies` (lines 1461-1504). -/
def fetchItems (fuel : Nat) (cfg : NetCfg) (items : List JsonV)
    (store : EntityStore) (parentId : Option JsonV) :
    List Record × EntityStore :=
  match fuel with
  | 0 => ([], store)
  | fuel + 1 =>
    match items with
    | [] => ([], store)
    | item :: rest =>
      let one := fetchItemOne fuel cfg item store parentId
      let more := fetchItems fuel cfg rest one.2 parentId
      (one.1 ++ more.1, more.2)

/-- One `allTargetItems` item: resolved reply, nested thread (all records
re-marked as replies of `parentId`), or nested reply pagination. -/
def fetchItemOne (fuel : Nat) (cfg : NetCfg) (item : JsonV)
    (store : EntityStore) (parentId : Option JsonV) :
    List Record × EntityStore :=
  match fuel with
  | 0 => ([], store)
  | fuel + 1 =>
    let cR := (idx item "commentRenderer").getD .null
    if jsTruthy cR then
      match resolveComment cR store with
      | some r => ([asReply parentId r], store)
      | none => ([], store)
    else
      let cVM := (chain (idx item "commentViewModel") "commentViewModel").getD .null
      if jsTruthy cVM then
        match resolveComment cVM store with
        | some r => ([asReply parentId r], store)
        | none => ([], store)
      else
        let cTR := (idx item "commentThreadRenderer").getD .null
        if jsTruthy cTR then
          let nested := processCommentThread fuel cfg cTR store 1 false
          (nested.1.map (asReply parentId), nested.2.2)
        else
          let cir := (idx item "continuationItemRenderer").getD .null
          if jsTruthy cir then
            let tok0 := idx cir "continuationEndpoint"
            let nextToken := if jsTruthyO tok0 then tok0 else buttonCommand cir
            match nextToken with
            | some tk =>
              if jsTruthy tk then
                let fr := fetchReplies fuel cfg tk store parentId
                (fr.1.getD [], fr.2)
              else ([], store)
            | none => ([], store)
          else ([], store)

end

theorem asReply_isReply (pid : Option JsonV) (r : Record) :
    (asReply pid r).isReply = true := rfl

theorem asReply_parentId (pid : Option JsonV) (r : Record) :
    (asReply pid r).parentId = pid := rfl

theorem asReplyUnderRoot_isReply (root : Option Record) (t : Record) :
    (asReplyUnderRoot root t).isReply = true := by
  cases root with
  | none => rfl
  | some rr =>
    simp only [asReplyUnderRoot]
    split <;> rfl

theorem legacyRoot_parentId (cr : JsonV) : (legacyRoot cr).parentId = none := rfl

theorem fetchSide_reply_marking : ∀ fuel : Nat,
    (∀ cfg ep store pid rs,
      (fetchReplies fuel cfg ep store pid).1 = some rs →
      ∀ r ∈ rs, r.isReply = true ∧ r.parentId = pid) ∧
    (∀ cfg items store pid r,
      r ∈ (fetchItems fuel cfg items store pid).1 →
      r.isReply = true ∧ r.parentId = pid) ∧
    (∀ cfg item store pid r,
      r ∈ (fetchItemOne fuel cfg item store pid).1 →
      r.isReply = true ∧ r.parentId = pid) := by
  intro fuel
  induction fuel with
  | zero =>
    refine ⟨?_, ?_, ?_⟩
    · intro cfg ep store pid rs h; simp [fetchReplies] at h
    · intro cfg items store pid r h; simp [fetchItems] at h
    · intro cfg item store pid r h; simp [fetchItemOne] at h
  | succ fuel ih =>
    obtain ⟨ihR, ihI, ihO⟩ := ih
    have hgetD : ∀ cfg tk store pid r,
        r ∈ ((fetchReplies fuel cfg tk store pid).1.getD []) →
        r.isReply = true ∧ r.parentId = pid := by
      intro cfg tk store pid r hr
      cases hfr : (fetchReplies fuel cfg tk store pid).1 with
      | none => rw [hfr] at hr; simp at hr
      | some ms =>
        rw [hfr] at hr
        exact ihR cfg tk store pid ms hfr r (by simpa using hr)
    refine ⟨?_, ?_, ?_⟩
    · intro cfg ep store pid rs h r hr
      simp only [fetchReplies] at h
      split at h
      · split at h
        · first
          | exact ihI cfg _ _ pid r hr
          | (obtain rfl := Option.some.inj h; exact ihI cfg _ _ pid r hr)
        · simp at h
      · simp at h
    · intro cfg items store pid r hr
      cases items with
      | nil => simp [fetchItems] at hr
      | cons item rest =>
        simp only [fetchItems] at hr
        rcases List.mem_append.mp hr with h | h
        · exact ihO cfg item store pid r h
        · exact ihI cfg rest _ pid r h
    · intro cfg item store pid r hr
      simp only [fetchItemOne] at hr
      split at hr
      · split at hr
        · simp only [List.mem_singleton] at hr
          subst hr
          exact ⟨rfl, rfl⟩
        · simp at hr
      · split at hr
        · split at hr
          · simp only [List.mem_singleton] at hr
            subst hr
            exact ⟨rfl, rfl⟩
          · simp at hr
        · split at hr
          · rcases List.mem_map.mp hr with ⟨t, -, rfl⟩
            exact ⟨rfl, rfl⟩
          · split at hr
            · split at hr
              · split at hr
                · exact hgetD cfg _ _ pid r hr
                · simp at hr
              · simp at hr
            · simp at hr

theorem rootOf_parentId (tr : JsonV) (store : EntityStore) :
    ∀ rc, rootOf tr store = some rc → rc.parentId = none := by
  intro rc h
  simp only [rootOf] at h
  split at h
  · exact (resolveComment_root_fields _ _ _ h).1
  · split at h
    · obtain rfl := (Option.some.inj h).symm
      exact legacyRoot_parentId _
    · cases h

theorem rootList_marking (rootOpt : Option Record)
    (hro : ∀ rc, rootOpt = some rc → rc.parentId = none) :
    ∀ r ∈ rootList rootOpt, r.parentId.isSome = true → r.isReply = true := by
  intro r hr hpid
  cases rootOpt with
  | none => simp [rootList] at hr
  | some rc =>
    simp only [rootList, List.mem_singleton] at hr
    subst hr
    exfalso
    have hp : ({ rc with isReply := false } : Record).parentId = none := hro rc rfl
    rw [hp] at hpid
    simp at hpid

theorem threadSide_reply_marking : ∀ fuel : Nat,
    (∀ cfg tr store depth useColl r,
      r ∈ (processCommentThread fuel cfg tr store depth useColl).1 →
      r.parentId.isSome = true → r.isReply = true) ∧
    (∀ cfg items store root depth useColl r,
      r ∈ (processSubItems fuel cfg items store root depth useColl).1 →
      r.isReply = true) ∧
    (∀ cfg sub store root depth useColl r,
      r ∈ (processSubItem fuel cfg sub store root depth useColl).1 →
      r.isReply = true) ∧
    (∀ cfg rr store root useColl r,
      r ∈ (processViewReplies fuel cfg rr store root useColl).1 →
      r.isReply = true) ∧
    (∀ cfg conts store root useColl r,
      r ∈ (processContinuations fuel cfg conts store root useColl).1 →
      r.isReply = true) ∧
    (∀ cfg items store root r,
      r ∈ (processLegacyContents fuel cfg items store root).1 →
      r.isReply = true) ∧
    (∀ cfg item store root r,
      r ∈ (processLegacyItem fuel cfg item store root).1 →
      r.isReply = true) := by
  intro fuel
  induction fuel with
  | zero =>
    refine ⟨?_, ?_, ?_, ?_, ?_, ?_, ?_⟩
    · intro cfg tr store depth useColl r hr; simp [processCommentThread] at hr
    · intro cfg items store root depth useColl r hr; simp [processSubItems] at hr
    · intro cfg sub store root depth useColl r hr; simp [processSubItem] at hr
    · intro cfg rr store root useColl r hr; simp [processViewReplies] at hr
    · intro cfg conts store root useColl r hr; simp [processContinuations] at hr
    · intro cfg items store root r hr; simp [processLegacyContents] at hr
    · intro cfg item store root r hr; simp [processLegacyItem] at hr
  | succ fuel ih =>
    obtain ⟨ihT, ihIs, ihI, ihV, ihC2, ihLs, ihL⟩ := ih
    have hgetD : ∀ cfg tk store pid r,
        r ∈ ((fetchReplies fuel cfg tk store pid).1.getD []) → r.isReply = true := by
      intro cfg tk store pid r hr
      cases hfr : (fetchReplies fuel cfg tk store pid).1 with
      | none => rw [hfr] at hr; simp at hr
      | some ms =>
        rw [hfr] at hr
        exact ((fetchSide_reply_marking fuel).1 cfg tk store pid ms hfr r
          (by simpa using hr)).1
    refine ⟨?_, ?_, ?_, ?_, ?_, ?_, ?_⟩
    · intro cfg tr store depth useColl r hr hpid
      simp only [processCommentThread] at hr
      split at hr
      · simp at hr
      · split at hr
        · split at hr
          · rcases List.mem_append.mp hr with h5 | hC
            · rcases List.mem_append.mp h5 with h4 | hB2
              · rcases List.mem_append.mp h4 with h3 | hB
                · rcases List.mem_append.mp h3 with h0 | hA
                  · exact rootList_marking _ (rootOf_parentId tr store) r h0 hpid
                  · exact ihIs cfg _ store _ depth useColl r hA
                · exact ihV cfg _ _ _ useColl r hB
              · exact ihC2 cfg _ _ _ useColl r hB2
            · exact ihLs cfg _ _ _ r hC
          · exact rootList_marking _ (rootOf_parentId tr store) r hr hpid
        · exact rootList_marking _ (rootOf_parentId tr store) r hr hpid
    · intro cfg items store root depth useColl r hr
      cases items with
      | nil => simp [processSubItems] at hr
      | cons sub rest =>
        simp only [processSubItems] at hr
        rcases List.mem_append.mp hr with h | h
        · exact ihI cfg sub store root depth useColl r h
        · exact ihIs cfg rest _ root depth useColl r h
    · intro cfg sub store root depth useColl r hr
      simp only [processSubItem] at hr
      split at hr
      · simp only [List.mem_singleton] at hr
        subst hr
        rfl
      · split at hr
        · split at hr
          · simp only [List.mem_singleton] at hr
            subst hr
            rfl
          · simp at hr
        · split at hr
          · rcases List.mem_map.mp hr with ⟨t, -, rfl⟩
            exact asReplyUnderRoot_isReply root t
          · split at hr
            · split at hr
              · split at hr
                · split at hr
                  · simp at hr
                  · exact hgetD cfg _ _ _ r hr
                · simp at hr
              · simp at hr
            · simp at hr
    · intro cfg rr store root useColl r hr
      simp only [processViewReplies] at hr
      split at hr
      · split at hr
        · split at hr
          · split at hr
            · split at hr
              · simp at hr
              · exact hgetD cfg _ _ _ r hr
            · simp at hr
          · simp at hr
        · simp at hr
      · simp at hr
    · intro cfg conts store root useColl r hr
      cases conts with
      | nil => simp [processContinuations] at hr
      | cons cont rest =>
        simp only [processContinuations] at hr
        rcases List.mem_append.mp hr with h | h
        · split at h
          · split at h
            · split at h
              · simp at h
              · exact hgetD cfg _ _ _ r h
            · simp at h
          · simp at h
        · exact ihC2 cfg rest _ root useColl r h
    · intro cfg items store root r hr
      cases items with
      | nil => simp [processLegacyContents] at hr
      | cons item rest =>
        simp only [processLegacyContents] at hr
        rcases List.mem_append.mp hr with h | h
        · exact ihL cfg item store root r h
        · exact ihLs cfg rest _ root r h
    · intro cfg item store root r hr
      simp only [processLegacyItem] at hr
      split at hr
      · split at hr
        · simp only [List.mem_singleton] at hr
          subst hr
          rfl
        · simp at hr
      · split at hr
        · split at hr
          · simp only [List.mem_singleton] at hr
            subst hr
            rfl
          · simp at hr
        · split at hr
          · split at hr
            · split at hr
              · exact hgetD cfg _ _ _ r hr
              · simp at hr
            · simp at hr
          · simp at hr

/-- C9 counterexample: a thread node without a resolvable root but with a
visible reply (the source's own comment at lines 1241-1245 notes such
root-less continuation threads are common) emits records with
`isReply = true` and no `parentId`, so the claim that every reply record has
a set `parentId` is false on the code. -/
theorem claim_C9_parent_counterexample :
    ¬ (∀ r ∈ (processCommentThread 10 ⟨true, fun _ => none⟩
        (JsonV.obj [("replies", JsonV.obj [("commentRepliesRenderer",
          JsonV.obj [("contents", JsonV.arr [JsonV.obj [("commentRenderer",
            JsonV.obj [("commentId", JsonV.str "r1")])]])])])])
        [] 0 false).1,
      r.isReply = true → r.parentId.isSome = true) := by decide

/-- C9 (amended): `parentId` is set only on records with `isReply = true` —
every record produced by `processCommentThread` (at any fuel, depth and
collector mode) with a present `parentId` is marked as a reply, and records
emitted as roots have `isReply = false` and no `parentId`; every record
returned by a reply-continuation fetch (`fetchReplies`) has `isReply = true`
and carries exactly the `parentId` the fetch was invoked with — which is
absent when the parent comment resolved without an id, so a reply record may
lack `parentId`. -/
theorem claim_C9_parent_amended :
    (∀ (fuel : Nat) (cfg : NetCfg) (tr : JsonV) (store : EntityStore)
        (depth : Nat) (useColl : Bool),
      ∀ r ∈ (processCommentThread fuel cfg tr store depth useColl).1,
        r.parentId.isSome = true → r.isReply = true) ∧
    (∀ (fuel : Nat) (cfg : NetCfg) (ep : JsonV) (store : EntityStore)
        (pid : Option JsonV) (rs : List Record),
      (fetchReplies fuel cfg ep store pid).1 = some rs →
      ∀ r ∈ rs, r.isReply = true ∧ r.parentId = pid) ∧
    (∀ (tr : JsonV) (store : EntityStore),
      ∀ r ∈ rootList (rootOf tr store),
        r.isReply = false ∧ r.parentId = none) := by
  refine ⟨fun fuel => (threadSide_reply_marking fuel).1,
    fun fuel => (fetchSide_reply_marking fuel).1, ?_⟩
  intro tr store r hr
  cases hro : rootOf tr store with
  | none => rw [hro] at hr; simp [rootList] at hr
  | some rc =>
    rw [hro] at hr
    simp only [rootList, List.mem_singleton] at hr
    subst hr
    exact ⟨rfl, rootOf_parentId tr store rc hro⟩

/-- Concrete instance of the amended claim: under a root that resolved with
a non-empty id, the visible reply emitted carries that id as `parentId` and
is marked as a reply. -/
theorem claim_C9_parent_amended_witness :
    ((processCommentThread 10 ⟨true, fun _ => none⟩
        (JsonV.obj [("comment", JsonV.obj [("commentRenderer",
            JsonV.obj [("commentId", JsonV.str "p")])]),
          ("replies", JsonV.obj [("commentRepliesRenderer",
            JsonV.obj [("contents", JsonV.arr [JsonV.obj [("commentRenderer",
              JsonV.obj [("commentId", JsonV.str "r1")])]])])])])
        [] 0 false).1.getD 1 ({} : Record)).isReply = true :=
  claim_C9_parent_amended.1 10 ⟨true, fun _ => none⟩
    (JsonV.obj [("comment", JsonV.obj [("commentRenderer",
        JsonV.obj [("commentId", JsonV.str "p")])]),
      ("replies", JsonV.obj [("commentRepliesRenderer",
        JsonV.obj [("contents", JsonV.arr [JsonV.obj [("commentRenderer",
          JsonV.obj [("commentId", JsonV.str "r1")])]])])])])
    [] 0 false _ (by decide) (by decide)
